import Mathlib

/-!
Verification of the ordering core of `transcribe_all.py`.

The Python source is shallowly embedded: pure functions become Lean functions,
code that can raise returns `Except Unit _` (`.error ()` models a raised
exception), and the external subprocess result is passed in as data.  CPython
library calls (`datetime.strptime`, `datetime.fromisoformat`,
`datetime.fromtimestamp`, `re` matching, `str.strip`) are modelled by explicit
executable definitions whose doc comments state the CPython behaviour they
capture.  `\d` and `str.strip()` are modelled over their ASCII parts
(Unicode digit/space classes beyond ASCII are not modelled).
-/

namespace Transcriber

/-! ### Datetime model -/

/-- Wall-clock (naive) datetime fields, as in a Python `datetime` without
`tzinfo`; `usec` is the microsecond field. -/
structure NaiveDT where
  year : Nat
  month : Nat
  day : Nat
  hour : Nat
  minute : Nat
  second : Nat
  usec : Nat
deriving DecidableEq, Repr

instance : Inhabited NaiveDT := ⟨⟨1, 1, 1, 0, 0, 0, 0⟩⟩

/-- Gregorian leap-year test, as in Python's `datetime` module. -/
def isLeap (y : Nat) : Bool := (y % 4 == 0 && y % 100 != 0) || y % 400 == 0

/-- Number of days in month `m` of year `y` (`m` in 1..12). -/
def daysInMonth (y m : Nat) : Nat :=
  if m = 2 then (if isLeap y then 29 else 28)
  else if m = 4 ∨ m = 6 ∨ m = 9 ∨ m = 11 then 30
  else 31

/-- Days in year `y` strictly before month `m`. -/
def daysBeforeMonth (y m : Nat) : Nat :=
  (List.range (m - 1)).foldl (fun acc i => acc + daysInMonth y (i + 1)) 0

/-- Python `datetime.toordinal()`: the proleptic-Gregorian day number of
`y-m-d`, with 0001-01-01 having ordinal 1. -/
def toOrdinal (y m d : Nat) : Nat :=
  365 * (y - 1) + (y - 1) / 4 - (y - 1) / 100 + (y - 1) / 400 + daysBeforeMonth y m + d

/-- Total microseconds of a naive datetime measured from 0001-01-01 00:00:00. -/
def naiveUSec (n : NaiveDT) : Int :=
  (((toOrdinal n.year n.month n.day - 1) * 86400
      + n.hour * 3600 + n.minute * 60 + n.second : Nat) : Int) * 1000000 + n.usec

/-- An aware datetime: naive fields plus a fixed utcoffset in seconds.  All
`tzinfo` objects the program builds are fixed-offset `datetime.timezone`
values (`timezone.utc`, and `_LOCAL_TZ`, the local offset captured once
at module load), so a single offset field models them faithfully. -/
structure AwareDT where
  naive : NaiveDT
  offsetSec : Int
deriving DecidableEq, Repr

instance : Inhabited AwareDT := ⟨⟨default, 0⟩⟩

/-- The instant an aware datetime denotes, in microseconds UTC.  CPython
compares (and hashes) aware datetimes by exactly this quantity. -/
def instant (a : AwareDT) : Int := naiveUSec a.naive - a.offsetSec * 1000000

/-- The standard era-based civil-from-days conversion (as used to model
`datetime.fromtimestamp`): day count since 1970-01-01 to `(year, month, day)`. -/
def civilFromDays (days : Nat) : Nat × Nat × Nat :=
  let z := days + 719468
  let era := z / 146097
  let doe := z % 146097
  let yoe := (doe - doe / 1460 + doe / 36524 - doe / 146097) / 365
  let y := yoe + era * 400
  let doy := doe - (365 * yoe + yoe / 4 - yoe / 100)
  let mp := (5 * doy + 2) / 153
  let d := doy - (153 * mp + 2) / 5 + 1
  let m := if mp < 10 then mp + 3 else mp - 9
  (if m ≤ 2 then y + 1 else y, m, d)

/-- Python `datetime.fromtimestamp(t, tz=timezone.utc)`.  The file timestamp
`t` (`st_mtime`) is modelled as a whole number of microseconds since the
Unix epoch (the resolution `fromtimestamp` keeps). -/
def fromtimestampUTC (usec : Nat) : AwareDT :=
  let days := usec / 86400000000
  let rem := usec % 86400000000
  let c := civilFromDays days
  ⟨⟨c.1, c.2.1, c.2.2, rem / 3600000000, rem / 60000000 % 60,
    rem / 1000000 % 60, rem % 1000000⟩, 0⟩

/-- Inverse direction of `naiveUSec`, used by `astimezone` arithmetic:
microseconds since 0001-01-01 back to naive fields (defined for the valid
datetime range; callers guard the range as CPython raises `OverflowError`
outside it). -/
def naiveOfUSec (u : Nat) : NaiveDT :=
  let days := u / 86400000000
  let rem := u % 86400000000
  let c := civilFromDays (days + 1 - 719163)
  ⟨c.1, c.2.1, c.2.2, rem / 3600000000, rem / 60000000 % 60,
    rem / 1000000 % 60, rem % 1000000⟩

/-- Microseconds corresponding to 10000-01-01 00:00:00, the exclusive upper
bound of Python's datetime range (`MAXYEAR = 9999`). -/
def maxUSec : Int := ((toOrdinal 10000 1 1 - 1 : Nat) : Int) * 86400000000

/-! ### Python string helpers -/

/-- ASCII decimal digit, modelling `\d` of the `re` module. -/
def isDig (c : Char) : Bool := '0' ≤ c && c ≤ '9'

/-- Numeric value of an ASCII digit. -/
def digVal (c : Char) : Nat := c.toNat - 48

/-- Value of a digit string, as Python `int()` computes it for a `\d+` match. -/
def digitsVal (cs : List Char) : Nat := cs.foldl (fun a c => 10 * a + digVal c) 0

/-- Python `str.strip()` whitespace set (ASCII part). -/
def isPySpace (c : Char) : Bool :=
  c == ' ' || c == '\t' || c == '\n' || c == '\x0b' || c == '\x0c' || c == '\r'

/-- Python `str.strip()`: drop leading and trailing whitespace. -/
def pyStrip (s : String) : String :=
  ⟨((s.data.dropWhile isPySpace).reverse.dropWhile isPySpace).reverse⟩

/-- Zero-padded decimal rendering, as `strftime`'s numeric directives emit. -/
def padNum (w n : Nat) : String :=
  let s := toString n
  ⟨List.replicate (w - s.length) '0' ++ s.data⟩

/-- `strftime("%Y-%m-%d %H:%M:%S")` on a (naive or aware) datetime's
wall-clock fields. -/
def fmtTS (n : NaiveDT) : String :=
  padNum 4 n.year ++ "-" ++ padNum 2 n.month ++ "-" ++ padNum 2 n.day ++ " "
    ++ padNum 2 n.hour ++ ":" ++ padNum 2 n.minute ++ ":" ++ padNum 2 n.second

/-- `pathlib.PurePath.stem`: the name minus its last suffix; a dot in first
position or last position does not delimit a suffix. -/
def stemOf (name : String) : String :=
  let cs := name.data
  match cs.reverse.findIdx? (· == '.') with
  | none => name
  | some r =>
    let i := cs.length - 1 - r
    if 0 < i ∧ i < cs.length - 1 then ⟨cs.take i⟩ else name

/-! ### `parse_dt_from_stem` (transcribe_all.py lines 20-24) -/

/-- `re.match` of `DT_RE = r"^(\d{8}) (\d{6})"`: the two digit groups when the
stem starts with eight digits, one space, and six digits. -/
def dtMatch (cs : List Char) : Option (List Char × List Char) :=
  match cs with
  | c1 :: c2 :: c3 :: c4 :: c5 :: c6 :: c7 :: c8 :: sp :: d1 :: d2 :: d3 :: d4 :: d5 :: d6 :: _ =>
    if ([c1, c2, c3, c4, c5, c6, c7, c8].all isDig && sp == ' '
        && [d1, d2, d3, d4, d5, d6].all isDig) then
      some ([c1, c2, c3, c4, c5, c6, c7, c8], [d1, d2, d3, d4, d5, d6])
    else none
  | _ => none

/-- Models CPython `datetime.strptime(s, "%Y%m%d%H%M%S")` on the 14-digit
strings `parse_dt_from_stem` hands to it.  Tracing CPython `_strptime`: each
of `%m %d %H %M %S` consumes one or two characters, so on an all-digit string
of length 14 only the 4-2-2-2-2-2 split can consume everything; any other
split leaves unconverted data, and the fields must then form a valid
`datetime`.  Otherwise `ValueError` is raised, modelled by `.error ()`. -/
def strptimeYmdHMS (cs : List Char) : Except Unit NaiveDT :=
  match cs with
  | [y1, y2, y3, y4, mo1, mo2, d1, d2, h1, h2, mi1, mi2, s1, s2] =>
    let y := digitsVal [y1, y2, y3, y4]
    let mo := digitsVal [mo1, mo2]
    let d := digitsVal [d1, d2]
    let h := digitsVal [h1, h2]
    let mi := digitsVal [mi1, mi2]
    let s := digitsVal [s1, s2]
    if 1 ≤ y ∧ 1 ≤ mo ∧ mo ≤ 12 ∧ 1 ≤ d ∧ d ≤ daysInMonth y mo
        ∧ h ≤ 23 ∧ mi ≤ 59 ∧ s ≤ 59 then
      .ok ⟨y, mo, d, h, mi, s, 0⟩
    else .error ()
  | _ => .error ()

/-- `parse_dt_from_stem`: `None` (here `.ok none`) when `DT_RE` does not
match; otherwise `datetime.strptime` of the concatenated groups — which may
raise (`.error ()`), since the source wraps it in no handler. -/
def parse_dt_from_stem (stem : String) : Except Unit (Option NaiveDT) :=
  match dtMatch stem.data with
  | none => .ok none
  | some (g1, g2) => (strptimeYmdHMS (g1 ++ g2)).map some

/-! ### `parse_name_sequence` (transcribe_all.py lines 27-47) -/

/-- One position of the match of `SEQ_RE = r"^(.*?)(?: (\d+))?$"`: does the
present-optional branch ` (\d+)$` match here?  Per CPython `re`: a space,
then a greedy `\d+`, then `$`, which matches at the end of the string or just
before a terminating newline. -/
def seqBranch (cs : List Char) : Option (List Char) :=
  match cs with
  | ' ' :: rest =>
    let ds := rest.takeWhile isDig
    let t := rest.dropWhile isDig
    if ds ≠ [] ∧ (t = [] ∨ t = ['\n']) then some ds else none
  | _ => none

/-- The lazy scan of `re.match(SEQ_RE, stem)`: the lazy `(.*?)` grows one
character at a time (never across a newline, since `.` does not match `\n`);
at each position the engine first tries the greedy optional ` (\d+)` branch,
then the bare `$` (end of string, or just before a terminating newline).
Returns `(group 1, group 2)`; `none` models a failed match. -/
def seqScan : List Char → List Char → Option (List Char × Option (List Char))
  | acc, [] => some (acc.reverse, none)
  | acc, c :: rest =>
    match seqBranch (c :: rest) with
    | some ds => some (acc.reverse, some ds)
    | none =>
      if c = '\n' then (if rest = [] then some (acc.reverse, none) else none)
      else seqScan (c :: acc) rest

/-- `parse_name_sequence`: group 1 stripped (both ends — `str.strip()`), and
the sequence index from group 2 (`int` of a `\d+` match never raises, so the
source's `except ValueError` arm is dead; absent group: index 0). -/
def parse_name_sequence (stem : String) : String × Nat :=
  match seqScan [] stem.data with
  | none => (stem, 0)
  | some (g1, g2) =>
    let base := pyStrip ⟨g1⟩
    match g2 with
    | some ds => (base, digitsVal ds)
    | none => (base, 0)

/-! ### `_parse_media_dt` (transcribe_all.py lines 49-75) -/

/-- Split a time string at its tz suffix, as CPython `_parse_isoformat_time`
does: the split position is the first `'-'` if any, else the first `'+'`. -/
def splitTz (cs : List Char) : List Char × Option (Char × List Char) :=
  match cs.findIdx? (· == '-') with
  | some i => (cs.take i, some ('-', cs.drop (i + 1)))
  | none =>
    match cs.findIdx? (· == '+') with
    | some i => (cs.take i, some ('+', cs.drop (i + 1)))
    | none => (cs, none)

/-- Two ASCII digits to their value. -/
def read2 (a b : Char) : Option Nat :=
  if isDig a && isDig b then some (10 * digVal a + digVal b) else none

/-- The fixed-width time grammar of CPython 3.10 `fromisoformat`:
`HH`, `HH:MM`, `HH:MM:SS`, `HH:MM:SS.fff` or `HH:MM:SS.ffffff`.
Returns `(hour, minute, second, microsecond)`. -/
def parseHMSF : List Char → Option (Nat × Nat × Nat × Nat)
  | [h1, h2] => (read2 h1 h2).map (fun h => (h, 0, 0, 0))
  | [h1, h2, ':', m1, m2] =>
    match read2 h1 h2, read2 m1 m2 with
    | some h, some m => some (h, m, 0, 0)
    | _, _ => none
  | [h1, h2, ':', m1, m2, ':', s1, s2] =>
    match read2 h1 h2, read2 m1 m2, read2 s1 s2 with
    | some h, some m, some s => some (h, m, s, 0)
    | _, _, _ => none
  | h1 :: h2 :: ':' :: m1 :: m2 :: ':' :: s1 :: s2 :: '.' :: fs =>
    match read2 h1 h2, read2 m1 m2, read2 s1 s2 with
    | some h, some m, some s =>
      if fs.all isDig ∧ (fs.length = 3 ∨ fs.length = 6) then
        some (h, m, s, digitsVal fs * (if fs.length = 3 then 1000 else 1))
      else none
    | _, _, _ => none
  | _ => none

/-- Tz-offset part `HH:MM` or `HH:MM:SS`, in seconds (unsigned); the
`timezone` constructor bounds each component (offsets lie strictly inside a
day). Fractional-second offsets are not modelled. -/
def parseTzHMS : List Char → Option Nat
  | [h1, h2, ':', m1, m2] =>
    match read2 h1 h2, read2 m1 m2 with
    | some h, some m => if h ≤ 23 ∧ m ≤ 59 then some (h * 3600 + m * 60) else none
    | _, _ => none
  | [h1, h2, ':', m1, m2, ':', s1, s2] =>
    match read2 h1 h2, read2 m1 m2, read2 s1 s2 with
    | some h, some m, some s =>
      if h ≤ 23 ∧ m ≤ 59 ∧ s ≤ 59 then some (h * 3600 + m * 60 + s) else none
    | _, _, _ => none
  | _ => none

/-- Models CPython 3.10 `datetime.fromisoformat`: a fixed-width
`YYYY-MM-DD` date, optionally followed by one separator character (any
character) and a time, optionally followed by a signed fixed-offset suffix.
Returns the naive fields and the offset (in seconds) when one was present;
`.error ()` models the raised `ValueError`. -/
def fromisoformat (cs : List Char) : Except Unit (NaiveDT × Option Int) :=
  match cs with
  | y1 :: y2 :: y3 :: y4 :: '-' :: mo1 :: mo2 :: '-' :: d1 :: d2 :: rest =>
    if ¬([y1, y2, y3, y4, mo1, mo2, d1, d2].all isDig) then .error () else
    let y := digitsVal [y1, y2, y3, y4]
    let mo := digitsVal [mo1, mo2]
    let d := digitsVal [d1, d2]
    if ¬(1 ≤ y ∧ 1 ≤ mo ∧ mo ≤ 12 ∧ 1 ≤ d ∧ d ≤ daysInMonth y mo) then .error ()
    else
      match rest with
      | [] => .ok (⟨y, mo, d, 0, 0, 0, 0⟩, none)
      | _ :: timecs =>
        let (tpart, tz) := splitTz timecs
        match parseHMSF tpart with
        | none => .error ()
        | some (h, mi, s, us) =>
          if ¬(h ≤ 23 ∧ mi ≤ 59 ∧ s ≤ 59) then .error ()
          else
            match tz with
            | none => .ok (⟨y, mo, d, h, mi, s, us⟩, none)
            | some (sgn, tzcs) =>
              match parseTzHMS tzcs with
              | none => .error ()
              | some off =>
                .ok (⟨y, mo, d, h, mi, s, us⟩,
                  some (if sgn = '-' then -(off : Int) else (off : Int)))
  | _ => .error ()

/-- `aware.astimezone(timezone.utc)`.  CPython returns `self` unchanged when
the tzinfo *is* the `timezone.utc` singleton — which it is exactly when the
offset is zero, since `timezone(timedelta(0))` returns the singleton.
Otherwise it shifts the wall-clock time by `-offset`, raising
`OverflowError` (modelled `.error`) outside years 1..9999. -/
def astimezoneUTC (a : AwareDT) : Except Unit AwareDT :=
  if a.offsetSec = 0 then .ok a
  else if 0 ≤ instant a ∧ instant a < maxUSec then
    .ok ⟨naiveOfUSec (instant a).toNat, 0⟩
  else .error ()

/-- Ordered alternatives of the `_strptime` directive `%m`
(regex `1[0-2]|0[1-9]|[1-9]`), each as `(value, remaining input)`. -/
def altsMon : List Char → List (Nat × List Char)
  | a :: b :: r =>
    (if a = '1' ∧ '0' ≤ b ∧ b ≤ '2' then [(10 + digVal b, r)] else [])
      ++ (if a = '0' ∧ '1' ≤ b ∧ b ≤ '9' then [(digVal b, r)] else [])
      ++ (if '1' ≤ a ∧ a ≤ '9' then [(digVal a, b :: r)] else [])
  | [a] => if '1' ≤ a ∧ a ≤ '9' then [(digVal a, [])] else []
  | [] => []

/-- Ordered alternatives of `%d` (regex `3[01]|[12]\d|0[1-9]|[1-9]| [1-9]`). -/
def altsDay : List Char → List (Nat × List Char)
  | a :: b :: r =>
    (if a = '3' ∧ ('0' ≤ b ∧ b ≤ '1') then [(30 + digVal b, r)] else [])
      ++ (if ('1' ≤ a ∧ a ≤ '2') ∧ isDig b then [(10 * digVal a + digVal b, r)] else [])
      ++ (if a = '0' ∧ '1' ≤ b ∧ b ≤ '9' then [(digVal b, r)] else [])
      ++ (if '1' ≤ a ∧ a ≤ '9' then [(digVal a, b :: r)] else [])
      ++ (if a = ' ' ∧ '1' ≤ b ∧ b ≤ '9' then [(digVal b, r)] else [])
  | [a] => if '1' ≤ a ∧ a ≤ '9' then [(digVal a, [])] else []
  | [] => []

/-- Ordered alternatives of `%H` (regex `2[0-3]|[0-1]\d|\d`). -/
def altsHour : List Char → List (Nat × List Char)
  | a :: b :: r =>
    (if a = '2' ∧ '0' ≤ b ∧ b ≤ '3' then [(20 + digVal b, r)] else [])
      ++ (if ('0' ≤ a ∧ a ≤ '1') ∧ isDig b then [(10 * digVal a + digVal b, r)] else [])
      ++ (if isDig a then [(digVal a, b :: r)] else [])
  | [a] => if isDig a then [(digVal a, [])] else []
  | [] => []

/-- Ordered alternatives of `%M` (regex `[0-5]\d|\d`). -/
def altsMin : List Char → List (Nat × List Char)
  | a :: b :: r =>
    (if ('0' ≤ a ∧ a ≤ '5') ∧ isDig b then [(10 * digVal a + digVal b, r)] else [])
      ++ (if isDig a then [(digVal a, b :: r)] else [])
  | [a] => if isDig a then [(digVal a, [])] else []
  | [] => []

/-- Ordered alternatives of `%S` (regex `6[0-1]|[0-5]\d|\d`). -/
def altsSec : List Char → List (Nat × List Char)
  | a :: b :: r =>
    (if a = '6' ∧ '0' ≤ b ∧ b ≤ '1' then [(60 + digVal b, r)] else [])
      ++ (if ('0' ≤ a ∧ a ≤ '5') ∧ isDig b then [(10 * digVal a + digVal b, r)] else [])
      ++ (if isDig a then [(digVal a, b :: r)] else [])
  | [a] => if isDig a then [(digVal a, [])] else []
  | [] => []

/-- A literal character of the format string. -/
def lit (c : Char) : List Char → Option (List Char)
  | a :: r => if a = c then some r else none
  | [] => none

/-- `%f` at the end of the input: one to six digits, right-padded with zeros
to microseconds; anything else leaves unconverted data. -/
def parseFrac (cs : List Char) : Option Nat :=
  if cs.all isDig ∧ 1 ≤ cs.length ∧ cs.length ≤ 6 then
    some (digitsVal cs * 10 ^ (6 - cs.length))
  else none

/-- `%S` and the tail of the format (end of input, or `.%f` and then the
end), with the regex engine's backtracking over the `%S` alternatives. -/
def chainSec (withFrac : Bool) (cs : List Char) : Option (Nat × Nat) :=
  (altsSec cs).findSome? fun sv =>
    if withFrac then
      match sv.2 with
      | '.' :: fr => (parseFrac fr).map (fun us => (sv.1, us))
      | _ => none
    else if sv.2 = [] then some (sv.1, 0) else none

/-- `%M:` then the rest. -/
def chainMin (withFrac : Bool) (cs : List Char) : Option (Nat × Nat × Nat) :=
  (altsMin cs).findSome? fun mv =>
    (lit ':' mv.2).bind fun r =>
      (chainSec withFrac r).map (fun su => (mv.1, su.1, su.2))

/-- `%H:` then the rest. -/
def chainHour (withFrac : Bool) (cs : List Char) : Option (Nat × Nat × Nat × Nat) :=
  (altsHour cs).findSome? fun hv =>
    (lit ':' hv.2).bind fun r =>
      (chainMin withFrac r).map (fun msu => (hv.1, msu))

/-- `%d ` then the rest. -/
def chainDay (withFrac : Bool) (cs : List Char) : Option (Nat × Nat × Nat × Nat × Nat) :=
  (altsDay cs).findSome? fun dv =>
    (lit ' ' dv.2).bind fun r =>
      (chainHour withFrac r).map (fun h => (dv.1, h))

/-- `%m-` then the rest. -/
def chainMon (withFrac : Bool) (cs : List Char) : Option (Nat × Nat × Nat × Nat × Nat × Nat) :=
  (altsMon cs).findSome? fun mv =>
    (lit '-' mv.2).bind fun r =>
      (chainDay withFrac r).map (fun d => (mv.1, d))

/-- Models CPython `datetime.strptime(s, "%Y-%m-%d %H:%M:%S")`
(`withFrac := false`) and `datetime.strptime(s, "%Y-%m-%d %H:%M:%S.%f")`
(`withFrac := true`): `%Y` is four digits, the numeric directives backtrack
over their regex alternatives, the whole string must be consumed, and the
matched fields must construct a valid `datetime` (`.error ()` models the
raised `ValueError`). -/
def strptimeDashed (withFrac : Bool) (cs : List Char) : Except Unit NaiveDT :=
  match cs with
  | y1 :: y2 :: y3 :: y4 :: rest =>
    if ¬([y1, y2, y3, y4].all isDig) then .error ()
    else
      let y := digitsVal [y1, y2, y3, y4]
      match (lit '-' rest).bind (chainMon withFrac) with
      | none => .error ()
      | some (mo, d, h, mi, s, us) =>
        if 1 ≤ y ∧ 1 ≤ d ∧ d ≤ daysInMonth y mo ∧ s ≤ 59 then
          .ok ⟨y, mo, d, h, mi, s, us⟩
        else .error ()
  | _ => .error ()

/-- `s.replace("Z", "+00:00")` (line 62), specialized to its
single-character pattern: every `'Z'` becomes `+00:00`, left to right. -/
def replaceZ : List Char → List Char
  | [] => []
  | c :: r =>
    if c = 'Z' then '+' :: '0' :: '0' :: ':' :: '0' :: '0' :: replaceZ r
    else c :: replaceZ r

/-- `_parse_media_dt` (lines 49-75): strip; empty → `None`; try
`fromisoformat` on the string with every `"Z"` replaced by `"+00:00"`,
attach UTC if naive and normalize via `astimezone(timezone.utc)` (any
exception falls through); then the two space-separated `strptime` fallbacks
with `tzinfo=timezone.utc` attached; else `None`. -/
def _parse_media_dt (s : String) : Option AwareDT :=
  if pyStrip s = "" then none
  else
    match
      (match fromisoformat (replaceZ (pyStrip s).data) with
       | .ok (n, tzo) => astimezoneUTC ⟨n, tzo.getD 0⟩
       | .error _ => .error ())
    with
    | .ok dt => some dt
    | .error _ =>
      match strptimeDashed false (pyStrip s).data with
      | .ok n => some ⟨n, 0⟩
      | .error _ =>
        match strptimeDashed true (pyStrip s).data with
        | .ok n => some ⟨n, 0⟩
        | .error _ => none

/-! ### `_media_created_dt_cached` (transcribe_all.py lines 77-123) -/

/-- A Python value as produced by `json.loads`. -/
inductive PyVal where
  | null
  | bool (b : Bool)
  | num (n : Int)
  | str (s : String)
  | list (xs : List PyVal)
  | dict (kvs : List (String × PyVal))
deriving Repr

/-- Python truthiness of a JSON-decoded value (as used by `x or default`). -/
def pyTruthy : PyVal → Bool
  | .null => false
  | .bool b => b
  | .num n => n != 0
  | .str s => s ≠ ""
  | .list xs => ¬xs.isEmpty
  | .dict kvs => ¬kvs.isEmpty

/-- `x or y` on Python values. -/
def pyOr (v dflt : PyVal) : PyVal := if pyTruthy v then v else dflt

/-- `v.get(k)`: `AttributeError` (modelled `.error ()`) when the receiver is
not a dict; `None` when the key is absent.  JSON object keys are unique. -/
def pyGet (v : PyVal) (k : String) : Except Unit PyVal :=
  match v with
  | .dict kvs => .ok (((kvs.find? (fun kv => kv.1 == k)).map Prod.snd).getD .null)
  | _ => .error ()

/-- `for x in v`: the iteration sequence, or `TypeError` (`.error ()`) for a
non-iterable value; a string iterates its characters, a dict its keys. -/
def pyIter (v : PyVal) : Except Unit (List PyVal) :=
  match v with
  | .list xs => .ok xs
  | .str s => .ok (s.data.map (fun c => .str ⟨[c]⟩))
  | .dict kvs => .ok (kvs.map (fun kv => .str kv.1))
  | _ => .error ()

/-- What the `ffprobe` subprocess invocation did: `raised` when
`subprocess.run` itself raised; otherwise the exit code together with the
outcome of `json.loads(cp.stdout or "{}")` (`.error ()` = malformed JSON;
empty stdout decodes as the empty object). -/
inductive ProbeOutcome where
  | raised
  | completed (returncode : Int) (loads : Except Unit PyVal)

/-- The tag keys inspected, in preference order (line 116). -/
def tagKeys : List String := ["creation_time", "com.apple.quicktime.creationdate", "date"]

/-- The inner key loop (lines 116-120): `tags.get(k)` may raise when a truthy
non-dict ended up in `tag_dicts`; a string value is parsed, the first parse
success is returned. -/
def tryTagKeys (tags : PyVal) : List String → Except Unit (Option AwareDT)
  | [] => .ok none
  | k :: ks =>
    match pyGet tags k with
    | .error e => .error e
    | .ok v =>
      match (match v with | .str s => _parse_media_dt s | _ => none) with
      | some dt => .ok (some dt)
      | none => tryTagKeys tags ks

/-- The outer loop over `tag_dicts` (lines 115-120). -/
def scanTagDicts : List PyVal → Except Unit (Option AwareDT)
  | [] => .ok none
  | tags :: rest =>
    match tryTagKeys tags tagKeys with
    | .error e => .error e
    | .ok (some dt) => .ok (some dt)
    | .ok none => scanTagDicts rest

/-- The `tag_dicts` entries contributed by the streams (lines 110-112). -/
def streamTagDicts : List PyVal → Except Unit (List PyVal)
  | [] => .ok []
  | st :: rest =>
    match (match st with
           | .dict _ =>
             match pyGet st "tags" with
             | .error e => .error e
             | .ok t => .ok [pyOr t (.dict [])]
           | _ => .ok [] : Except Unit (List PyVal)) with
    | .error e => .error e
    | .ok here =>
      match streamTagDicts rest with
      | .error e => .error e
      | .ok there => .ok (here ++ there)

/-- The body of the `try:` block of `_media_created_dt_cached`
(lines 84-120), in evaluation order. -/
def probeBody : ProbeOutcome → Except Unit (Option AwareDT)
  | .raised => .error ()
  | .completed rc loads =>
    if rc ≠ 0 then .ok none
    else
      match loads with
      | .error e => .error e
      | .ok data =>
        match pyGet data "format" with
        | .error e => .error e
        | .ok fmtv =>
          match (match pyOr fmtv (.dict []) with
                 | .dict kvs =>
                   match pyGet (.dict kvs) "tags" with
                   | .error e => .error e
                   | .ok t => .ok [pyOr t (.dict [])]
                 | _ => .ok [] : Except Unit (List PyVal)) with
          | .error e => .error e
          | .ok td1 =>
            match pyGet data "streams" with
            | .error e => .error e
            | .ok streamsv =>
              match pyIter (pyOr streamsv (.list [])) with
              | .error e => .error e
              | .ok streams =>
                match streamTagDicts streams with
                | .error e => .error e
                | .ok td2 => scanTagDicts (td1 ++ td2)

/-- `_media_created_dt_cached`: the `try/except Exception` wrapper — any
raised exception yields `None`, as does falling through the loops.  The
`lru_cache` memoization is pure and needs no modelling. -/
def _media_created_dt_cached (o : ProbeOutcome) : Option AwareDT :=
  match probeBody o with
  | .ok r => r
  | .error _ => none

/-! ### `sort_key` (transcribe_all.py lines 142-161) and the sort -/

/-- The ordering key `(priority, dt, base_name, seq_idx, filename)` built by
`sort_key`. -/
structure SortKey where
  priority : Nat
  dt : AwareDT
  base : String
  seq : Nat
  name : String
deriving DecidableEq, Repr

/-- One input recording file: its name (final path component), the outcome of
the `ffprobe` invocation for its path (memoized by `lru_cache`, hence a
single value per file), and its `st_mtime` in whole microseconds since the
epoch. -/
structure FileInfo where
  name : String
  tool : ProbeOutcome
  mtimeUSec : Nat

/-- `Path.stem` of the file. -/
def FileInfo.stem (f : FileInfo) : String := stemOf f.name

/-- `media_created_dt` (lines 126-131): the memoized probe result. -/
def media_created_dt (f : FileInfo) : Option AwareDT := _media_created_dt_cached f.tool

/-- `sort_key` (lines 142-161), parameterized by `_LOCAL_TZ`'s fixed offset
`localOff` in seconds.  `.error ()` models the `ValueError` that
`parse_dt_from_stem` can raise and `sort_key` does not catch. -/
def sort_key (localOff : Int) (f : FileInfo) : Except Unit SortKey :=
  let ns := parse_name_sequence f.stem
  match media_created_dt f with
  | some dtm => .ok ⟨0, dtm, ns.1, ns.2, f.name⟩
  | none =>
    match parse_dt_from_stem f.stem with
    | .error e => .error e
    | .ok (some n) => .ok ⟨1, ⟨n, localOff⟩, ns.1, ns.2, f.name⟩
    | .ok none => .ok ⟨2, fromtimestampUTC f.mtimeUSec, ns.1, ns.2, f.name⟩

/-- The header-timestamp resolution duplicated in `main` (lines 199-206):
media creation time if available, else the filename timestamp with
`_LOCAL_TZ` attached, else the mtime as UTC. -/
def headerDt (localOff : Int) (f : FileInfo) : Except Unit AwareDT :=
  match media_created_dt f with
  | some dtm => .ok dtm
  | none =>
    match parse_dt_from_stem f.stem with
    | .error e => .error e
    | .ok (some n) => .ok ⟨n, localOff⟩
    | .ok none => .ok (fromtimestampUTC f.mtimeUSec)

/-- The comparison view of a `SortKey`: Python compares the key tuples
lexicographically, comparing the aware datetimes by their instant. -/
def keyTup (k : SortKey) : Nat ×ₗ Int ×ₗ String ×ₗ Nat ×ₗ String :=
  toLex (k.priority, toLex (instant k.dt, toLex (k.base, toLex (k.seq, k.name))))

/-- The Boolean `≤` on decorated (file, key) pairs used by the sort. -/
def pairLe (a b : FileInfo × SortKey) : Bool := decide (keyTup a.2 ≤ keyTup b.2)

/-- `sorted(files, key=sort_key)` evaluates the key of every file in input
order (a raised `ValueError` propagates), decorating the list. -/
def decorate (localOff : Int) : List FileInfo → Except Unit (List (FileInfo × SortKey))
  | [] => .ok []
  | f :: fs =>
    match sort_key localOff f with
    | .error e => .error e
    | .ok k =>
      match decorate localOff fs with
      | .error e => .error e
      | .ok ps => .ok ((f, k) :: ps)

/-- `sorted(files, key=sort_key)` (line 179): decorate, sort the pairs by
key (CPython's sort is stable), undecorate. -/
def pySortFiles (localOff : Int) (l : List FileInfo) : Except Unit (List FileInfo) :=
  match decorate localOff l with
  | .error e => .error e
  | .ok ps => .ok ((ps.mergeSort pairLe).map Prod.fst)

/-! ### The display-label pass of `main` (lines 188, 210-217) -/

/-- `dt.astimezone()` with no argument (line 210): convert to the local
timezone, modelled as the fixed offset `localOff`; the wall clock moves by
`localOff - offset`.  Defined on the valid datetime range (outside years
1..9999 CPython raises `OverflowError`, which is not modelled here). -/
def astimezoneLocal (localOff : Int) (a : AwareDT) : AwareDT :=
  ⟨naiveOfUSec (naiveUSec a.naive + (localOff - a.offsetSec) * 1000000).toNat, localOff⟩

/-- `dt_local.replace(microsecond=0)` (line 211), the `counts_by_second`
key.  Every key carries the same local tzinfo and Python dict equality on
equal-offset aware datetimes is wall-clock-field equality, so the naive
fields serve as the key. -/
def truncKey (a : AwareDT) : NaiveDT := { a.naive with usec := 0 }

/-- The displayed-second key of a resolved timestamp: the local display time
truncated to whole seconds. -/
def dispKey (localOff : Int) (dt : AwareDT) : NaiveDT :=
  truncKey (astimezoneLocal localOff dt)

/-- `counts_by_second.get(key, 0)`: dictionary lookup with default 0, on the
association-list model of the dict. -/
def lookupD (counts : List (NaiveDT × Nat)) (k : NaiveDT) : Nat :=
  ((counts.find? (fun kv => decide (kv.1 = k))).map Prod.snd).getD 0

/-- One iteration of the display-label pass (lines 210-217): look up and
increment the per-second counter, format, and append `:<count>` when the
count exceeds one.  Returns the updated `counts_by_second` and the label. -/
def labelStep (localOff : Int) (counts : List (NaiveDT × Nat)) (dt : AwareDT) :
    List (NaiveDT × Nat) × String :=
  let dtLocal := astimezoneLocal localOff dt
  let key := truncKey dtLocal
  let count := lookupD counts key + 1
  let ts := fmtTS dtLocal.naive
  ((key, count) :: counts.filter (fun kv => !decide (kv.1 = key)),
   if count > 1 then ts ++ ":" ++ toString count else ts)

/-- The label pass over the resolved timestamps of the sorted files, with
`counts_by_second` threaded through. -/
def labelsGo (localOff : Int) (counts : List (NaiveDT × Nat)) :
    List AwareDT → List String
  | [] => []
  | dt :: rest =>
    let p := labelStep localOff counts dt
    p.2 :: labelsGo localOff p.1 rest

/-- The labels of a run: `counts_by_second` starts empty (line 188). -/
def collisionLabels (localOff : Int) (dts : List AwareDT) : List String :=
  labelsGo localOff [] dts

/-- The count the label pass reaches at position `i` of `dts`: the number of
occurrences of the file's displayed second among the first `i + 1` files,
plus any count carried in from `counts`. -/
def labelCount (localOff : Int) (counts : List (NaiveDT × Nat)) (dts : List AwareDT)
    (i : Nat) (hi : i < dts.length) : Nat :=
  lookupD counts (dispKey localOff (dts.get ⟨i, hi⟩)) +
    (dts.take (i + 1)).countP
      (fun d => decide (dispKey localOff d = dispKey localOff (dts.get ⟨i, hi⟩)))

/-- The label the specification predicts at position `i`: the bare formatted
local timestamp when the count is 1, and the `:<count>` suffix otherwise. -/
def labelFormula (localOff : Int) (counts : List (NaiveDT × Nat)) (dts : List AwareDT)
    (i : Nat) (hi : i < dts.length) : String :=
  let c := labelCount localOff counts dts i hi
  if c > 1 then
    fmtTS (astimezoneLocal localOff (dts.get ⟨i, hi⟩)).naive ++ ":" ++ toString c
  else fmtTS (astimezoneLocal localOff (dts.get ⟨i, hi⟩)).naive

instance : Inhabited SortKey := ⟨⟨0, default, "", 0, ""⟩⟩

/-- The key of a file whose key computation succeeded (default otherwise). -/
def extractKey (off : Int) (f : FileInfo) : SortKey :=
  match sort_key off f with
  | .ok k => k
  | .error _ => default

/-! ### Digit-rendering helpers for symbolic stems and tag values -/

/-- The two ASCII digits of a number below 100. -/
def dig2 (n : Nat) : List Char := [Nat.digitChar (n / 10), Nat.digitChar (n % 10)]

/-- The four ASCII digits of a number below 10000. -/
def dig4 (n : Nat) : List Char := dig2 (n / 100) ++ dig2 (n % 100)

/-- The six ASCII digits of a number below 1000000. -/
def dig6 (n : Nat) : List Char :=
  dig2 (n / 10000) ++ dig2 (n / 100 % 100) ++ dig2 (n % 100)

/-- An ISO-8601 `YYYY-MM-DD<sep>HH:MM:SS` rendering of datetime fields. -/
def isoCore (y mo d h mi s : Nat) (sep : Char) : List Char :=
  dig4 y ++ '-' :: dig2 mo ++ '-' :: dig2 d ++ sep :: dig2 h ++ ':' :: dig2 mi
    ++ ':' :: dig2 s

theorem isDig_digitChar {n : Nat} (h : n ≤ 9) : isDig (Nat.digitChar n) = true := by
  interval_cases n <;> decide

theorem digVal_digitChar {n : Nat} (h : n ≤ 9) : digVal (Nat.digitChar n) = n := by
  interval_cases n <;> decide

theorem digitsVal_cons (c : Char) (cs : List Char) :
    digitsVal (c :: cs) = cs.foldl (fun a x => 10 * a + digVal x) (digVal c) := by
  simp [digitsVal]

theorem digitsVal_dig2 {n : Nat} (h : n ≤ 99) : digitsVal (dig2 n) = n := by
  have h1 : n / 10 ≤ 9 := by omega
  have h2 : n % 10 ≤ 9 := by omega
  simp [dig2, digitsVal, digVal_digitChar h1, digVal_digitChar h2]
  omega

theorem digitsVal_dig4 {n : Nat} (h : n ≤ 9999) : digitsVal (dig4 n) = n := by
  have h1 : n / 100 ≤ 99 := by omega
  have h2 : n % 100 ≤ 99 := by omega
  have e1 : (n / 100) / 10 ≤ 9 := by omega
  have e2 : (n / 100) % 10 ≤ 9 := by omega
  have e3 : (n % 100) / 10 ≤ 9 := by omega
  have e4 : (n % 100) % 10 ≤ 9 := by omega
  simp [dig4, dig2, digitsVal, digVal_digitChar e1, digVal_digitChar e2,
    digVal_digitChar e3, digVal_digitChar e4]
  omega

theorem isDig_of_mem_dig2 {n : Nat} (h : n ≤ 99) {c : Char} (hc : c ∈ dig2 n) :
    isDig c = true := by
  have h1 : n / 10 ≤ 9 := by omega
  have h2 : n % 10 ≤ 9 := by omega
  simp [dig2] at hc
  rcases hc with rfl | rfl
  · exact isDig_digitChar h1
  · exact isDig_digitChar h2

theorem ne_of_isDig {c d : Char} (h : isDig c = true) (hd : isDig d = false) :
    c ≠ d := by
  intro he; subst he; rw [h] at hd; exact Bool.noConfusion hd

/-! ### Helper lemmas about the key order -/

theorem keyTup_inj_aux {k₁ k₂ : SortKey} (h : keyTup k₁ = keyTup k₂) :
    k₁.priority = k₂.priority ∧ instant k₁.dt = instant k₂.dt ∧
    k₁.base = k₂.base ∧ k₁.seq = k₂.seq ∧ k₁.name = k₂.name := by
  unfold keyTup at h
  rw [toLex_inj, Prod.mk.injEq, toLex_inj, Prod.mk.injEq, toLex_inj, Prod.mk.injEq,
    toLex_inj, Prod.mk.injEq] at h
  exact ⟨h.1, h.2.1, h.2.2.1, h.2.2.2.1, h.2.2.2.2⟩

theorem keyTup_priority_le {k₁ k₂ : SortKey} (h : keyTup k₁ ≤ keyTup k₂) :
    k₁.priority ≤ k₂.priority := by
  unfold keyTup at h
  rcases (Prod.Lex.le_iff _ _).mp h with hlt | ⟨heq, _⟩
  · exact le_of_lt hlt
  · exact le_of_eq heq

theorem keyTup_lt_of_priority_lt {k₁ k₂ : SortKey} (h : k₁.priority < k₂.priority) :
    keyTup k₁ < keyTup k₂ := by
  unfold keyTup
  exact (Prod.Lex.lt_iff _ _).mpr (Or.inl h)

/-- The filename component of the key is the file's name, in every branch of
`sort_key`. -/
theorem sort_key_name {off : Int} {f : FileInfo} {k : SortKey}
    (h : sort_key off f = .ok k) : k.name = f.name := by
  unfold sort_key at h
  split at h
  · simp only [Except.ok.injEq] at h; subst h; rfl
  · split at h
    · exact absurd h (by simp)
    · simp only [Except.ok.injEq] at h; subst h; rfl
    · simp only [Except.ok.injEq] at h; subst h; rfl

theorem daysInMonth_le_31 (y m : Nat) : daysInMonth y m ≤ 31 := by
  unfold daysInMonth
  split
  · split <;> omega
  · split <;> omega

theorem digitsVal2_chars {a b : Nat} (ha : a ≤ 9) (hb : b ≤ 9) :
    digitsVal [Nat.digitChar a, Nat.digitChar b] = 10 * a + b := by
  simp [digitsVal, digVal_digitChar ha, digVal_digitChar hb]

theorem digitsVal4_chars {a b c d : Nat} (ha : a ≤ 9) (hb : b ≤ 9) (hc : c ≤ 9)
    (hd : d ≤ 9) :
    digitsVal [Nat.digitChar a, Nat.digitChar b, Nat.digitChar c, Nat.digitChar d] =
      1000 * a + 100 * b + 10 * c + d := by
  simp [digitsVal, digVal_digitChar ha, digVal_digitChar hb, digVal_digitChar hc,
    digVal_digitChar hd]
  ring

/-- Evaluation of `parse_dt_from_stem` on a stem that starts with an
8-digit/space/6-digit rendering of the fields `y mo dd h mi s`: the result is
the parsed timestamp when the fields form a valid datetime, and the
propagated `ValueError` otherwise. -/
theorem parse_dt_formatted (y mo dd h mi s : Nat) (rest : List Char)
    (hy : y ≤ 9999) (hmo : mo ≤ 99) (hdd : dd ≤ 99) (hh : h ≤ 99)
    (hmi : mi ≤ 99) (hs : s ≤ 99) :
    parse_dt_from_stem
        ⟨dig4 y ++ dig2 mo ++ dig2 dd ++ ' ' :: (dig2 h ++ dig2 mi ++ dig2 s ++ rest)⟩ =
      (if 1 ≤ y ∧ 1 ≤ mo ∧ mo ≤ 12 ∧ 1 ≤ dd ∧ dd ≤ daysInMonth y mo
          ∧ h ≤ 23 ∧ mi ≤ 59 ∧ s ≤ 59
        then .ok (some ⟨y, mo, dd, h, mi, s, 0⟩) else .error ()) := by
  have b1 : y / 100 / 10 ≤ 9 := by omega
  have b2 : y / 100 % 10 ≤ 9 := by omega
  have b3 : y % 100 / 10 ≤ 9 := by omega
  have b4 : y % 100 % 10 ≤ 9 := by omega
  have b5 : mo / 10 ≤ 9 := by omega
  have b6 : mo % 10 ≤ 9 := by omega
  have b7 : dd / 10 ≤ 9 := by omega
  have b8 : dd % 10 ≤ 9 := by omega
  have b9 : h / 10 ≤ 9 := by omega
  have b10 : h % 10 ≤ 9 := by omega
  have b11 : mi / 10 ≤ 9 := by omega
  have b12 : mi % 10 ≤ 9 := by omega
  have b13 : s / 10 ≤ 9 := by omega
  have b14 : s % 10 ≤ 9 := by omega
  simp only [parse_dt_from_stem, dig4, dig2, List.cons_append, List.nil_append, dtMatch,
    List.all_cons, List.all_nil, isDig_digitChar b1, isDig_digitChar b2, isDig_digitChar b3,
    isDig_digitChar b4, isDig_digitChar b5, isDig_digitChar b6, isDig_digitChar b7,
    isDig_digitChar b8, isDig_digitChar b9, isDig_digitChar b10, isDig_digitChar b11,
    isDig_digitChar b12, isDig_digitChar b13, isDig_digitChar b14, Bool.and_true,
    Bool.true_and, beq_self_eq_true, if_true, strptimeYmdHMS,
    digitsVal2_chars b5 b6, digitsVal2_chars b7 b8, digitsVal2_chars b9 b10,
    digitsVal2_chars b11 b12, digitsVal2_chars b13 b14, digitsVal4_chars b1 b2 b3 b4]
  have ey : 1000 * (y / 100 / 10) + 100 * (y / 100 % 10) + 10 * (y % 100 / 10)
      + y % 100 % 10 = y := by omega
  have em : 10 * (mo / 10) + mo % 10 = mo := by omega
  have ed : 10 * (dd / 10) + dd % 10 = dd := by omega
  have eh : 10 * (h / 10) + h % 10 = h := by omega
  have emi : 10 * (mi / 10) + mi % 10 = mi := by omega
  have es : 10 * (s / 10) + s % 10 = s := by omega
  rw [ey, em, ed, eh, emi, es]
  split <;> rfl

/-- C10: the header-timestamp resolution in `main` agrees with the timestamp
component of `sort_key`, for every file (with the memoized probe result
shared), including the propagation of a `ValueError`. -/
theorem C10_header_dt_refines_sort_key (localOff : Int) (f : FileInfo) :
    headerDt localOff f = (sort_key localOff f).map SortKey.dt := by
  unfold headerDt sort_key
  rcases hm : media_created_dt f with _ | dtm
  · rcases hp : parse_dt_from_stem f.stem with e | o
    · simp [hp, Except.map]
    · rcases o with _ | n <;> simp [hp, Except.map]
  · simp [hm, Except.map]

/-- C1: timestamp resolution selects sources in strict priority order: a
media-metadata timestamp gives priority 0 with that (UTC) timestamp; else a
stem starting with a valid `YYYYMMDD HHMMSS` rendering gives priority 1 with
exactly the filename-encoded wall-clock fields and the process-local
timezone; else priority 2 with the filesystem mtime interpreted as UTC. -/
theorem C1_resolution_priority_order (localOff : Int) (f : FileInfo) :
    (∀ dtm, media_created_dt f = some dtm →
      sort_key localOff f = .ok ⟨0, dtm, (parse_name_sequence f.stem).1,
        (parse_name_sequence f.stem).2, f.name⟩)
  ∧ (∀ y mo dd h mi s rest, media_created_dt f = none →
      f.stem = ⟨dig4 y ++ dig2 mo ++ dig2 dd ++ ' ' :: (dig2 h ++ dig2 mi ++ dig2 s ++ rest)⟩ →
      1 ≤ y → y ≤ 9999 → 1 ≤ mo → mo ≤ 12 → 1 ≤ dd → dd ≤ daysInMonth y mo →
      h ≤ 23 → mi ≤ 59 → s ≤ 59 →
      sort_key localOff f = .ok ⟨1, ⟨⟨y, mo, dd, h, mi, s, 0⟩, localOff⟩,
        (parse_name_sequence f.stem).1, (parse_name_sequence f.stem).2, f.name⟩)
  ∧ (media_created_dt f = none → parse_dt_from_stem f.stem = .ok none →
      sort_key localOff f = .ok ⟨2, fromtimestampUTC f.mtimeUSec,
        (parse_name_sequence f.stem).1, (parse_name_sequence f.stem).2, f.name⟩) := by
  refine ⟨fun dtm hm => ?_, fun y mo dd h mi s rest hm hstem h1 h2 h3 h4 h5 h6 h7 h8 h9 => ?_,
    fun hm hp => ?_⟩
  · unfold sort_key; rw [hm]
  · have hd99 : dd ≤ 99 := by have := daysInMonth_le_31 y mo; omega
    unfold sort_key; rw [hm, hstem,
      parse_dt_formatted y mo dd h mi s rest (by omega) (by omega) hd99
        (by omega) (by omega) (by omega)]
    rw [if_pos ⟨h1, h3, h4, h5, h6, h7, h8, h9⟩]
  · unfold sort_key; rw [hm, hp]

/-- Witness for C1: all three branches at concrete files — a file with a
media creation tag, a pattern-named file without one, and a plain-named file
without one. -/
theorem C1_resolution_priority_order_witness :
    sort_key 3600 ⟨"any.wav",
        .completed 0 (.ok (.dict [("format",
          .dict [("tags", .dict [("creation_time", .str "2026-01-10T09:00:00Z")])])])), 0⟩ =
      .ok ⟨0, ⟨⟨2026, 1, 10, 9, 0, 0, 0⟩, 0⟩, "any", 0, "any.wav"⟩
  ∧ sort_key 3600 ⟨"20260113 131024.wav", .completed 1 (.ok .null), 0⟩ =
      .ok ⟨1, ⟨⟨2026, 1, 13, 13, 10, 24, 0⟩, 3600⟩, "20260113", 131024,
        "20260113 131024.wav"⟩
  ∧ sort_key 3600 ⟨"plain.wav", .raised, 86400000000⟩ =
      .ok ⟨2, ⟨⟨1970, 1, 2, 0, 0, 0, 0⟩, 0⟩, "plain", 0, "plain.wav"⟩ := by
  refine ⟨?_, ?_, ?_⟩
  · have := (C1_resolution_priority_order 3600 ⟨"any.wav",
        .completed 0 (.ok (.dict [("format",
          .dict [("tags", .dict [("creation_time", .str "2026-01-10T09:00:00Z")])])])), 0⟩).1
      ⟨⟨2026, 1, 10, 9, 0, 0, 0⟩, 0⟩ (by rfl)
    simpa using this
  · have := (C1_resolution_priority_order 3600
        ⟨"20260113 131024.wav", .completed 1 (.ok .null), 0⟩).2.1
      2026 1 13 13 10 24 [] (by rfl) (by rfl) (by omega) (by omega) (by omega) (by omega)
      (by omega) (by decide) (by omega) (by omega) (by omega)
    simpa using this
  · have := (C1_resolution_priority_order 3600 ⟨"plain.wav", .raised, 86400000000⟩).2.2
      (by rfl) (by rfl)
    simpa using this

/-- Counterexample to C7 as stated: the parser is not total — a stem matching
the 8-digit/space/6-digit pattern whose fields are not a valid calendar
date/time makes `datetime.strptime` raise `ValueError`, which
`parse_dt_from_stem` propagates instead of returning a value. -/
theorem C7_counterexample_raises :
    parse_dt_from_stem "20260230 250000 note" = .error () := rfl

/-- C7 amended: the parser returns `None` for every stem not matching the
pattern, the encoded timestamp for every stem starting with a valid
`YYYYMMDD HHMMSS` rendering — and raises (does not return) exactly when the
pattern matches but the fields are not a valid datetime. -/
theorem C7_amended_parser_contract :
    (∀ stem : String, dtMatch stem.data = none → parse_dt_from_stem stem = .ok none)
  ∧ (∀ y mo dd h mi s rest,
      1 ≤ y → y ≤ 9999 → 1 ≤ mo → mo ≤ 12 → 1 ≤ dd → dd ≤ daysInMonth y mo →
      h ≤ 23 → mi ≤ 59 → s ≤ 59 →
      parse_dt_from_stem
          ⟨dig4 y ++ dig2 mo ++ dig2 dd ++ ' ' :: (dig2 h ++ dig2 mi ++ dig2 s ++ rest)⟩ =
        .ok (some ⟨y, mo, dd, h, mi, s, 0⟩))
  ∧ (∀ y mo dd h mi s rest, y ≤ 9999 → mo ≤ 99 → dd ≤ 99 → h ≤ 99 → mi ≤ 99 → s ≤ 99 →
      ¬(1 ≤ y ∧ 1 ≤ mo ∧ mo ≤ 12 ∧ 1 ≤ dd ∧ dd ≤ daysInMonth y mo
          ∧ h ≤ 23 ∧ mi ≤ 59 ∧ s ≤ 59) →
      parse_dt_from_stem
          ⟨dig4 y ++ dig2 mo ++ dig2 dd ++ ' ' :: (dig2 h ++ dig2 mi ++ dig2 s ++ rest)⟩ =
        .error ()) := by
  refine ⟨fun stem hn => ?_, fun y mo dd h mi s rest h1 h2 h3 h4 h5 h6 h7 h8 h9 => ?_,
    fun y mo dd h mi s rest b1 b2 b3 b4 b5 b6 hinval => ?_⟩
  · unfold parse_dt_from_stem; rw [hn]
  · have hd99 : dd ≤ 99 := by have := daysInMonth_le_31 y mo; omega
    rw [parse_dt_formatted y mo dd h mi s rest (by omega) (by omega) hd99
      (by omega) (by omega) (by omega)]
    rw [if_pos ⟨h1, h3, h4, h5, h6, h7, h8, h9⟩]
  · rw [parse_dt_formatted y mo dd h mi s rest b1 b2 b3 b4 b5 b6]
    rw [if_neg hinval]

/-- Witness for the amended C7: each branch at a concrete stem. -/
theorem C7_amended_parser_contract_witness :
    parse_dt_from_stem "hello" = .ok none
  ∧ parse_dt_from_stem "20260113 131024 2" = .ok (some ⟨2026, 1, 13, 13, 10, 24, 0⟩)
  ∧ parse_dt_from_stem "20260230 250000" = .error () := by
  refine ⟨C7_amended_parser_contract.1 "hello" rfl, ?_, ?_⟩
  · have := C7_amended_parser_contract.2.1 2026 1 13 13 10 24 [' ', '2']
      (by omega) (by omega) (by omega) (by omega) (by omega) (by decide)
      (by omega) (by omega) (by omega)
    simpa using this
  · have := C7_amended_parser_contract.2.2 2026 2 30 25 0 0 []
      (by omega) (by omega) (by omega) (by omega) (by omega) (by omega) (by decide)
    simpa using this

/-! ### Properties of the decorated sort -/

theorem decorate_ok_eq {off : Int} : ∀ {l : List FileInfo} {ps},
    decorate off l = .ok ps → ps = l.map (fun f => (f, extractKey off f)) := by
  intro l
  induction l with
  | nil => intro ps h; simp only [decorate, Except.ok.injEq] at h; simp [← h]
  | cons f fs ih =>
    intro ps h
    simp only [decorate] at h
    rcases hk : sort_key off f with e | k <;> rw [hk] at h
    · exact Except.noConfusion h
    · rcases hd : decorate off fs with e | qs <;> rw [hd] at h
      · exact Except.noConfusion h
      · simp only [Except.ok.injEq] at h
        subst h
        simp [List.map_cons, ih hd, extractKey, hk]

theorem decorate_error_iff {off : Int} : ∀ {l : List FileInfo},
    decorate off l = .error () ↔ ∃ f ∈ l, sort_key off f = .error () := by
  intro l
  induction l with
  | nil => simp [decorate]
  | cons f fs ih =>
    simp only [decorate]
    rcases hk : sort_key off f with e | k
    · cases e
      exact ⟨fun _ => ⟨f, List.mem_cons_self f fs, hk⟩, fun _ => rfl⟩
    · rcases hd : decorate off fs with e | qs
      · cases e
        constructor
        · intro _
          obtain ⟨g, hg, hgk⟩ := ih.mp hd
          exact ⟨g, List.mem_cons_of_mem f hg, hgk⟩
        · intro _; rfl
      · constructor
        · intro h; exact Except.noConfusion h
        · rintro ⟨g, hg, hgk⟩
          rcases List.mem_cons.mp hg with rfl | hg'
          · rw [hk] at hgk; exact Except.noConfusion hgk
          · have : decorate off fs = .error () := ih.mpr ⟨g, hg', hgk⟩
            rw [this] at hd; exact Except.noConfusion hd

theorem decorate_ok_mem {off : Int} {l : List FileInfo} {ps}
    (h : decorate off l = .ok ps) : ∀ p ∈ ps, sort_key off p.1 = .ok p.2 := by
  intro p hp
  have hrep := decorate_ok_eq h
  subst hrep
  obtain ⟨f, hf, rfl⟩ := List.mem_map.mp hp
  have : sort_key off f ≠ .error () := by
    intro herr
    have : decorate off l = .error () := decorate_error_iff.mpr ⟨f, hf, herr⟩
    rw [this] at h; exact absurd h (by simp)
  rcases hk : sort_key off f with e | k
  · cases e; exact absurd hk this
  · simp [extractKey, hk]

theorem decorate_mem_fst {off : Int} {l : List FileInfo} {ps}
    (h : decorate off l = .ok ps) : ∀ p ∈ ps, p.1 ∈ l := by
  intro p hp
  have hrep := decorate_ok_eq h
  subst hrep
  obtain ⟨f, hf, rfl⟩ := List.mem_map.mp hp
  exact hf

theorem pairLe_trans (a b c : FileInfo × SortKey) (h₁ : pairLe a b = true)
    (h₂ : pairLe b c = true) : pairLe a c = true := by
  simp only [pairLe, decide_eq_true_eq] at *
  exact le_trans h₁ h₂

theorem pairLe_total (a b : FileInfo × SortKey) : (pairLe a b || pairLe b a) = true := by
  simp only [pairLe, Bool.or_eq_true, decide_eq_true_eq]
  exact le_total _ _

/-- Two sorted permutations of each other are equal, provided `le` is
antisymmetric on the elements involved. -/
theorem sorted_perm_eq {α : Type _} {le : α → α → Bool} (l₁ : List α) :
    ∀ l₂, l₁.Perm l₂ →
      List.Pairwise (fun a b => le a b = true) l₁ →
      List.Pairwise (fun a b => le a b = true) l₂ →
      (∀ a b, a ∈ l₁ → b ∈ l₁ → le a b = true → le b a = true → a = b) →
      l₁ = l₂ := by
  induction l₁ with
  | nil =>
    intro l₂ hp _ _ _
    exact (hp.symm.eq_nil).symm
  | cons a t₁ ih =>
    intro l₂ hp hs₁ hs₂ hanti
    cases l₂ with
    | nil => exact absurd hp.eq_nil (by simp)
    | cons b t₂ =>
      have hbmem : b ∈ a :: t₁ := hp.symm.mem_iff.mp (List.mem_cons_self b t₂)
      have hamem : a ∈ b :: t₂ := hp.mem_iff.mp (List.mem_cons_self a t₁)
      have hab : a = b := by
        rcases List.mem_cons.mp hbmem with h1 | h1
        · exact h1.symm
        · rcases List.mem_cons.mp hamem with h2 | h2
          · exact h2
          · have l1 : le a b = true := (List.pairwise_cons.mp hs₁).1 b h1
            have l2 : le b a = true := (List.pairwise_cons.mp hs₂).1 a h2
            exact hanti a b (List.mem_cons_self a t₁) hbmem l1 l2
      subst hab
      have ht : t₁.Perm t₂ := hp.cons_inv
      have heq := ih t₂ ht (List.pairwise_cons.mp hs₁).2 (List.pairwise_cons.mp hs₂).2
        (fun x y hx hy => hanti x y (List.mem_cons_of_mem a hx) (List.mem_cons_of_mem a hy))
      rw [heq]

/-- C2: priority rank strictly dominates the timestamp in the ordering: a
lower (more trusted) priority gives a strictly smaller key whatever the
timestamps, and in any successfully sorted output a file whose key has lower
priority appears strictly before one with higher priority. -/
theorem C2_priority_dominates_timestamp (localOff : Int) :
    (∀ (f g : FileInfo) kf kg, sort_key localOff f = .ok kf →
        sort_key localOff g = .ok kg →
        kf.priority < kg.priority → keyTup kf < keyTup kg)
  ∧ (∀ (l S : List FileInfo), pySortFiles localOff l = .ok S →
      ∀ (i j : Nat) (hi : i < S.length) (hj : j < S.length) kf kg,
        sort_key localOff (S.get ⟨i, hi⟩) = .ok kf →
        sort_key localOff (S.get ⟨j, hj⟩) = .ok kg →
        kf.priority < kg.priority → i < j) := by
  constructor
  · intro f g kf kg _ _ hlt
    exact keyTup_lt_of_priority_lt hlt
  · intro l S hS i j hi hj kf kg hkf hkg hlt
    rcases hd : decorate localOff l with e | ps
    · unfold pySortFiles at hS; rw [hd] at hS; exact Except.noConfusion hS
    · unfold pySortFiles at hS; rw [hd] at hS
      simp only [Except.ok.injEq] at hS
      subst hS
      set ms := ps.mergeSort pairLe with hms
      have hsort : List.Sorted (fun a b => pairLe a b = true) ms :=
        List.sorted_mergeSort pairLe_trans pairLe_total ps
      simp only [List.length_map] at hi hj
      have hmem := decorate_ok_mem hd
      have hget : ∀ (n : Nat) (hn : n < ms.length),
          (ms.map Prod.fst).get ⟨n, by simpa using hn⟩ = (ms.get ⟨n, hn⟩).1 := by
        intro n hn
        simp
      have hkey : ∀ (n : Nat) (hn : n < ms.length) km,
          sort_key localOff ((ms.map Prod.fst).get ⟨n, by simpa using hn⟩) = .ok km →
          km = (ms.get ⟨n, hn⟩).2 := by
        intro n hn km hm
        have hmemms : ms.get ⟨n, hn⟩ ∈ ms := List.get_mem ms n hn
        have h1 := hmem _ ((List.mergeSort_perm ps pairLe).mem_iff.mp hmemms)
        rw [← hget n hn] at h1
        rw [hm] at h1
        simpa using h1
      have e1 := hkey i hi kf hkf
      have e2 := hkey j hj kg hkg
      by_contra hij
      push_neg at hij
      rcases lt_or_eq_of_le hij with hji | hji
      · have hrel := hsort.rel_get_of_lt (a := ⟨j, hj⟩) (b := ⟨i, hi⟩)
          (by simpa using hji)
        have : keyTup kg ≤ keyTup kf := by
          simp only [pairLe, decide_eq_true_eq] at hrel
          rw [e1, e2]; exact hrel
        exact absurd (keyTup_priority_le this) (by omega)
      · have hfe : (⟨j, hj⟩ : Fin ms.length) = ⟨i, hi⟩ := by
          simp [hji]
        have : kf = kg := by rw [e1, e2, hfe]
        rw [this] at hlt; omega

/-- C3: the ordering key is a strict total order on any file set with
pairwise-distinct filenames — distinct names give distinct key tuples, and
sorting any two permutations of such a set yields identical results
(including identical error outcomes). -/
theorem C3_total_order_and_determinism (localOff : Int) :
    (∀ (f g : FileInfo) kf kg, f.name ≠ g.name → sort_key localOff f = .ok kf →
        sort_key localOff g = .ok kg → keyTup kf ≠ keyTup kg)
  ∧ (∀ l₁ l₂ : List FileInfo, l₁.Perm l₂ →
      l₁.Pairwise (fun a b => a.name ≠ b.name) →
      pySortFiles localOff l₁ = pySortFiles localOff l₂) := by
  constructor
  · intro f g kf kg hne hkf hkg heq
    have h5 := (keyTup_inj_aux heq).2.2.2.2
    rw [sort_key_name hkf, sort_key_name hkg] at h5
    exact hne h5
  · intro l₁ l₂ hperm hnames
    rcases hd₁ : decorate localOff l₁ with e₁ | ps₁
    · cases e₁
      have herr₂ : decorate localOff l₂ = .error () := by
        obtain ⟨f, hf, hfk⟩ := decorate_error_iff.mp hd₁
        exact decorate_error_iff.mpr ⟨f, hperm.mem_iff.mp hf, hfk⟩
      unfold pySortFiles
      rw [hd₁, herr₂]
    · rcases hd₂ : decorate localOff l₂ with e₂ | ps₂
      · cases e₂
        obtain ⟨f, hf, hfk⟩ := decorate_error_iff.mp hd₂
        have : decorate localOff l₁ = .error () :=
          decorate_error_iff.mpr ⟨f, hperm.mem_iff.mpr hf, hfk⟩
        rw [this] at hd₁; exact Except.noConfusion hd₁
      · have hps : ps₁.Perm ps₂ := by
          rw [decorate_ok_eq hd₁, decorate_ok_eq hd₂]
          exact hperm.map _
        have hmsperm : (ps₁.mergeSort pairLe).Perm (ps₂.mergeSort pairLe) :=
          ((List.mergeSort_perm ps₁ pairLe).trans hps).trans
            (List.mergeSort_perm ps₂ pairLe).symm
        have hanti : ∀ p q, p ∈ ps₁.mergeSort pairLe → q ∈ ps₁.mergeSort pairLe →
            pairLe p q = true → pairLe q p = true → p = q := by
          intro p q hp hq h₁ h₂
          have hp' : p ∈ ps₁ := (List.mergeSort_perm ps₁ pairLe).mem_iff.mp hp
          have hq' : q ∈ ps₁ := (List.mergeSort_perm ps₁ pairLe).mem_iff.mp hq
          simp only [pairLe, decide_eq_true_eq] at h₁ h₂
          have hkeq : keyTup p.2 = keyTup q.2 := le_antisymm h₁ h₂
          have hname : p.2.name = q.2.name := (keyTup_inj_aux hkeq).2.2.2.2
          have hpk := decorate_ok_mem hd₁ p hp'
          have hqk := decorate_ok_mem hd₁ q hq'
          have hfname : p.1.name = q.1.name := by
            rw [← sort_key_name hpk, ← sort_key_name hqk]; exact hname
          have hsym : Symmetric (fun a b : FileInfo => a.name ≠ b.name) := by
            intro x y hxy he; exact hxy he.symm
          have hfeq : p.1 = q.1 := by
            by_contra hne
            exact (hnames.forall hsym
              (decorate_mem_fst hd₁ p hp') (decorate_mem_fst hd₁ q hq') hne) hfname
          have : p.2 = q.2 := by
            rw [hfeq] at hpk
            rw [hpk] at hqk
            simpa using hqk
          exact Prod.ext hfeq this
        have heq : ps₁.mergeSort pairLe = ps₂.mergeSort pairLe :=
          sorted_perm_eq _ _ hmsperm
            (List.sorted_mergeSort pairLe_trans pairLe_total ps₁)
            (List.sorted_mergeSort pairLe_trans pairLe_total ps₂) hanti
        unfold pySortFiles
        rw [hd₁, hd₂]
        simp [heq]

unseal List.merge List.mergeSort in
/-- Witness for C2, the spec's §8 scenario: a file with media creation time
2026-01-10T09:00:00Z gets a strictly smaller key than `20260113 131024.wav`
without metadata although the filename date is later, and in the sorted
output the media file is at index 0 and the filename file after it. -/
theorem C2_priority_dominates_timestamp_witness :
    keyTup ⟨0, ⟨⟨2026, 1, 10, 9, 0, 0, 0⟩, 0⟩, "zzz", 0, "zzz.wav"⟩ <
      keyTup ⟨1, ⟨⟨2026, 1, 13, 13, 10, 24, 0⟩, 3600⟩, "20260113", 131024,
        "20260113 131024.wav"⟩
  ∧ (0 : Nat) < 1 := by
  constructor
  · exact (C2_priority_dominates_timestamp 3600).1
      ⟨"zzz.wav", .completed 0 (.ok (.dict [("format",
          .dict [("tags", .dict [("creation_time", .str "2026-01-10T09:00:00Z")])])])), 0⟩
      ⟨"20260113 131024.wav", .completed 1 (.ok .null), 0⟩
      _ _ (by rfl) (by rfl) (by decide)
  · exact (C2_priority_dominates_timestamp 3600).2
      [⟨"20260113 131024.wav", .completed 1 (.ok .null), 0⟩,
       ⟨"zzz.wav", .completed 0 (.ok (.dict [("format",
          .dict [("tags", .dict [("creation_time", .str "2026-01-10T09:00:00Z")])])])), 0⟩]
      [⟨"zzz.wav", .completed 0 (.ok (.dict [("format",
          .dict [("tags", .dict [("creation_time", .str "2026-01-10T09:00:00Z")])])])), 0⟩,
       ⟨"20260113 131024.wav", .completed 1 (.ok .null), 0⟩]
      (by rfl) 0 1 (by decide) (by decide)
      ⟨0, ⟨⟨2026, 1, 10, 9, 0, 0, 0⟩, 0⟩, "zzz", 0, "zzz.wav"⟩
      ⟨1, ⟨⟨2026, 1, 13, 13, 10, 24, 0⟩, 3600⟩, "20260113", 131024, "20260113 131024.wav"⟩
      (by rfl) (by rfl) (by decide)

/-- Witness for C3: two distinct-named files give distinct key tuples, and
sorting the two orderings of the pair yields the same result. -/
theorem C3_total_order_and_determinism_witness :
    keyTup ⟨2, ⟨⟨1970, 1, 1, 0, 0, 0, 0⟩, 0⟩, "a", 0, "a.wav"⟩ ≠
      keyTup ⟨2, ⟨⟨1970, 1, 1, 0, 0, 0, 0⟩, 0⟩, "b", 0, "b.wav"⟩
  ∧ pySortFiles 3600 [⟨"b.wav", .raised, 0⟩, ⟨"a.wav", .raised, 0⟩] =
      pySortFiles 3600 [⟨"a.wav", .raised, 0⟩, ⟨"b.wav", .raised, 0⟩] := by
  constructor
  · exact (C3_total_order_and_determinism 3600).1
      ⟨"a.wav", .raised, 0⟩ ⟨"b.wav", .raised, 0⟩ _ _
      (by decide) (by rfl) (by rfl)
  · exact (C3_total_order_and_determinism 3600).2
      [⟨"b.wav", .raised, 0⟩, ⟨"a.wav", .raised, 0⟩]
      [⟨"a.wav", .raised, 0⟩, ⟨"b.wav", .raised, 0⟩]
      (List.Perm.swap _ _ _) (by decide)

/-! ### The collision-label invariant (C4) -/

theorem labelsGo_length (localOff : Int) :
    ∀ (dts : List AwareDT) (counts : List (NaiveDT × Nat)),
      (labelsGo localOff counts dts).length = dts.length := by
  intro dts
  induction dts with
  | nil => intro counts; rfl
  | cons d rest ih => intro counts; simp [labelsGo, ih]

theorem collisionLabels_length (localOff : Int) (dts : List AwareDT) :
    (collisionLabels localOff dts).length = dts.length :=
  labelsGo_length localOff dts []

theorem find?_filter_ne (counts : List (NaiveDT × Nat)) (k k' : NaiveDT) (hne : k' ≠ k) :
    (counts.filter (fun kv => !decide (kv.1 = k))).find? (fun kv => decide (kv.1 = k')) =
      counts.find? (fun kv => decide (kv.1 = k')) := by
  have h3 : ¬(k = k') := fun he => hne he.symm
  induction counts with
  | nil => rfl
  | cons kv rest ih =>
    by_cases h1 : kv.1 = k
    · have h2 : ¬(kv.1 = k') := by rw [h1]; exact h3
      simp [List.filter_cons, List.find?_cons, h1, h2, h3, hne, ih]
    · by_cases h2 : kv.1 = k'
      · simp [List.filter_cons, List.find?_cons, h1, h2, h3, hne]
      · simp [List.filter_cons, List.find?_cons, h1, h2, h3, hne, ih]

theorem lookupD_update (counts : List (NaiveDT × Nat)) (k k' : NaiveDT) (c : Nat) :
    lookupD ((k, c) :: counts.filter (fun kv => !decide (kv.1 = k))) k' =
      if k' = k then c else lookupD counts k' := by
  by_cases h : k' = k
  · subst h; simp [lookupD, List.find?_cons]
  · have h' : ¬(k = k') := fun he => h he.symm
    simp [lookupD, List.find?_cons, h', h, find?_filter_ne counts k k' h]

theorem labelsGo_get (localOff : Int) :
    ∀ (dts : List AwareDT) (counts : List (NaiveDT × Nat)) (i : Nat) (hi : i < dts.length),
      (labelsGo localOff counts dts).get
          ⟨i, by rw [labelsGo_length]; exact hi⟩ =
        labelFormula localOff counts dts i hi := by
  intro dts
  induction dts with
  | nil => intro counts i hi; exact absurd hi (by simp)
  | cons d rest ih =>
    intro counts i hi
    cases i with
    | zero =>
      simp [labelsGo, labelStep, labelFormula, labelCount, List.countP_cons, dispKey,
        List.take]
    | succ n =>
      have hn : n < rest.length := by simpa using hi
      have hstep := ih
        ((truncKey (astimezoneLocal localOff d),
            lookupD counts (truncKey (astimezoneLocal localOff d)) + 1) ::
          counts.filter (fun kv => !decide (kv.1 = truncKey (astimezoneLocal localOff d))))
        n hn
      have hlhs : (labelsGo localOff counts (d :: rest)).get
            ⟨n + 1, by rw [labelsGo_length]; exact hi⟩ =
          (labelsGo localOff
            ((truncKey (astimezoneLocal localOff d),
                lookupD counts (truncKey (astimezoneLocal localOff d)) + 1) ::
              counts.filter
                (fun kv => !decide (kv.1 = truncKey (astimezoneLocal localOff d))))
            rest).get ⟨n, by rw [labelsGo_length]; exact hn⟩ := by
        simp [labelsGo, labelStep]
      rw [hlhs, hstep]
      have hkey : ∀ m (hm : m < rest.length),
          dispKey localOff (rest.get ⟨m, hm⟩) =
            dispKey localOff ((d :: rest).get ⟨m + 1, by simpa using hm⟩) := by
        intro m hm; rfl
      have hc : labelCount localOff
          ((truncKey (astimezoneLocal localOff d),
              lookupD counts (truncKey (astimezoneLocal localOff d)) + 1) ::
            counts.filter
              (fun kv => !decide (kv.1 = truncKey (astimezoneLocal localOff d))))
          rest n hn = labelCount localOff counts (d :: rest) (n + 1) hi := by
        unfold labelCount
        rw [lookupD_update]
        have hgets : (d :: rest).get ⟨n + 1, hi⟩ = rest.get ⟨n, hn⟩ := rfl
        rw [hgets]
        have htake : (d :: rest).take (n + 1 + 1) = d :: rest.take (n + 1) := rfl
        rw [htake, List.countP_cons]
        by_cases hk : dispKey localOff (rest.get ⟨n, hn⟩) =
            truncKey (astimezoneLocal localOff d)
        · rw [if_pos hk, hk]
          have hpd : dispKey localOff d = truncKey (astimezoneLocal localOff d) := rfl
          simp [hpd]
          omega
        · rw [if_neg hk]
          have hpd : ¬(dispKey localOff d = dispKey localOff (rest.get ⟨n, hn⟩)) := by
            simp only [dispKey]
            exact fun he => hk he.symm
          simp [hpd]
          simpa using hpd
      unfold labelFormula
      rw [hc]
      rfl

/-- C4: processing files in sorted order with the per-second counter, the
file at position `i` is labelled with the bare formatted local timestamp when
it is the first of its displayed second, and with the `:<k>` suffix when it
is the `k`-th; the count is exactly the number of files up to and including
`i` that share its displayed second, so distinct seconds never affect each
other. -/
theorem C4_collision_labels (localOff : Int) (dts : List AwareDT) (i : Nat)
    (hi : i < dts.length) :
    (collisionLabels localOff dts).get
        ⟨i, by rw [collisionLabels_length]; exact hi⟩ =
      labelFormula localOff [] dts i hi :=
  labelsGo_get localOff dts [] i hi

/-- Witness for C4: three files on the identical displayed second followed by
one on the next second get labels bare, `:2`, `:3`, and bare. -/
theorem C4_collision_labels_witness :
    (collisionLabels 0 [⟨⟨2026, 1, 13, 13, 10, 24, 0⟩, 0⟩,
        ⟨⟨2026, 1, 13, 13, 10, 24, 500000⟩, 0⟩,
        ⟨⟨2026, 1, 13, 13, 10, 24, 999⟩, 0⟩,
        ⟨⟨2026, 1, 13, 13, 10, 25, 0⟩, 0⟩]).get ⟨1, by decide⟩ =
      "2026-01-13 13:10:24:2"
  ∧ (collisionLabels 0 [⟨⟨2026, 1, 13, 13, 10, 24, 0⟩, 0⟩,
        ⟨⟨2026, 1, 13, 13, 10, 24, 500000⟩, 0⟩,
        ⟨⟨2026, 1, 13, 13, 10, 24, 999⟩, 0⟩,
        ⟨⟨2026, 1, 13, 13, 10, 25, 0⟩, 0⟩]).get ⟨3, by decide⟩ =
      "2026-01-13 13:10:25" := by
  constructor
  · exact (C4_collision_labels 0 _ 1 (by decide)).trans (by rfl)
  · exact (C4_collision_labels 0 _ 3 (by decide)).trans (by rfl)

/-! ### The `SEQ_RE` match (C5, C6) -/

theorem seqScan_nil (acc : List Char) : seqScan acc [] = some (acc.reverse, none) := rfl

theorem seqBranch_cons_space (rest : List Char) :
    seqBranch (' ' :: rest) =
      (if rest.takeWhile isDig ≠ [] ∧
          (rest.dropWhile isDig = [] ∨ rest.dropWhile isDig = ['\n'])
        then some (rest.takeWhile isDig) else none) := rfl

theorem seqBranch_eq_none_of_ne {c : Char} {r : List Char} (h : c ≠ ' ') :
    seqBranch (c :: r) = none := by
  unfold seqBranch
  split
  · next rest heq =>
    injection heq with h1 _
    exact absurd h1 h
  · rfl

theorem seqScan_cons_branch_none {c : Char} {rest : List Char} (acc : List Char)
    (h : seqBranch (c :: rest) = none) :
    seqScan acc (c :: rest) =
      (if c = '\n' then (if rest = [] then some (acc.reverse, none) else none)
       else seqScan (c :: acc) rest) := by
  have e : seqScan acc (c :: rest) =
      (match seqBranch (c :: rest) with
       | some ds => some (acc.reverse, some ds)
       | none =>
         if c = '\n' then (if rest = [] then some (acc.reverse, none) else none)
         else seqScan (c :: acc) rest) := rfl
  rw [e, h]

theorem seqScan_cons_branch_some {c : Char} {rest ds : List Char} (acc : List Char)
    (h : seqBranch (c :: rest) = some ds) :
    seqScan acc (c :: rest) = some (acc.reverse, some ds) := by
  have e : seqScan acc (c :: rest) =
      (match seqBranch (c :: rest) with
       | some ds => some (acc.reverse, some ds)
       | none =>
         if c = '\n' then (if rest = [] then some (acc.reverse, none) else none)
         else seqScan (c :: acc) rest) := rfl
  rw [e, h]

theorem seqBranch_some_inv {cs ds : List Char} (h : seqBranch cs = some ds) :
    ∃ t, cs = ' ' :: (ds ++ t) ∧ ds ≠ [] ∧ ds.all isDig = true
      ∧ (t = [] ∨ t = ['\n']) := by
  cases cs with
  | nil => exact Option.noConfusion h
  | cons c rest =>
    by_cases hc : c = ' '
    · subst hc
      rw [seqBranch_cons_space] at h
      split at h
      · next hcond =>
        injection h with h1
        subst h1
        refine ⟨rest.dropWhile isDig, ?_, hcond.1,
          List.all_eq_true.mpr (fun x hx => List.mem_takeWhile_imp hx), hcond.2⟩
        rw [List.takeWhile_append_dropWhile]
      · exact Option.noConfusion h
    · rw [seqBranch_eq_none_of_ne hc] at h
      exact Option.noConfusion h

/-- The branch ` (\d+)$` cannot fire at a position whose suffix still
contains the final separator space: everything after the leading space would
have to be digits up to the end (or a final newline). -/
theorem seqBranch_none_mid (c : Char) (mid' d₂ : List Char) (hne : d₂ ≠ []) :
    seqBranch (c :: (mid' ++ ' ' :: d₂)) = none := by
  by_cases hc : c = ' '
  · subst hc
    rw [seqBranch_cons_space]
    have hsplit : ∃ u, (mid' ++ ' ' :: d₂).dropWhile isDig = u ++ ' ' :: d₂ := by
      rw [List.dropWhile_append]
      split
      · refine ⟨[], ?_⟩
        rw [List.dropWhile_cons, if_neg (by decide)]
        rfl
      · exact ⟨mid'.dropWhile isDig, rfl⟩
    obtain ⟨u, hu⟩ := hsplit
    have hd1 : 1 ≤ d₂.length := by
      cases d₂ with
      | nil => exact absurd rfl hne
      | cons _ _ => simp
    rw [if_neg]
    rintro ⟨-, ht | ht⟩ <;> rw [hu] at ht
    all_goals
      have hlen := congrArg List.length ht
      simp only [List.length_append, List.length_cons, List.length_nil] at hlen
      omega
  · exact seqBranch_eq_none_of_ne hc

/-- Walking lemma: the lazy scan runs through any newline-free prefix and
fires the optional branch at the final separator space. -/
theorem seqScan_trailing (d₂ : List Char) (hne : d₂ ≠ []) (hdig : d₂.all isDig = true) :
    ∀ (mid acc : List Char), (∀ c ∈ mid, c ≠ '\n') →
      seqScan acc (mid ++ ' ' :: d₂) = some (acc.reverse ++ mid, some d₂) := by
  intro mid
  induction mid with
  | nil =>
    intro acc _
    have hbr : seqBranch (' ' :: d₂) = some d₂ := by
      rw [seqBranch_cons_space,
        List.takeWhile_eq_self_iff.mpr (List.all_eq_true.mp hdig),
        List.dropWhile_eq_nil_iff.mpr (List.all_eq_true.mp hdig),
        if_pos ⟨hne, Or.inl rfl⟩]
    rw [List.nil_append, seqScan_cons_branch_some acc hbr]
    simp
  | cons c mid' ih =>
    intro acc hnl
    have hbr := seqBranch_none_mid c mid' d₂ hne
    have hcnl : c ≠ '\n' := hnl c (List.mem_cons_self c mid')
    rw [List.cons_append, seqScan_cons_branch_none acc hbr, if_neg hcnl,
      ih (c :: acc) (fun x hx => hnl x (List.mem_cons_of_mem c hx))]
    simp

/-- Walking lemma: on a newline-free stem with no trailing ` digits` suffix,
the scan reaches the end and the optional group stays empty. -/
theorem seqScan_no_trailing :
    ∀ (s acc : List Char), (∀ c ∈ s, c ≠ '\n') →
      (¬∃ t ds, s = t ++ ' ' :: ds ∧ ds ≠ [] ∧ ds.all isDig = true) →
      seqScan acc s = some (acc.reverse ++ s, none) := by
  intro s
  induction s with
  | nil => intro acc _ _; rw [seqScan_nil]; simp
  | cons c s' ih =>
    intro acc hnl hno
    have hbr : seqBranch (c :: s') = none := by
      rcases h : seqBranch (c :: s') with _ | ds
      · rfl
      · obtain ⟨t, heq, hdne, hdall, ht⟩ := seqBranch_some_inv h
        rcases ht with rfl | rfl
        · simp only [List.append_nil] at heq
          exact absurd ⟨[], ds, by simpa using heq, hdne, hdall⟩ hno
        · have : '\n' ∈ c :: s' := by rw [heq]; simp
          exact absurd rfl (hnl '\n' this)
    have hcnl : c ≠ '\n' := hnl c (List.mem_cons_self c s')
    rw [seqScan_cons_branch_none acc hbr, if_neg hcnl,
      ih (c :: acc) (fun x hx => hnl x (List.mem_cons_of_mem c hx))
        (fun ⟨t, ds, heq, hdne, hdall⟩ => hno ⟨c :: t, ds, by rw [heq]; rfl, hdne, hdall⟩)]
    simp

theorem parse_name_sequence_trailing (t ds : List Char)
    (hnl : ∀ c ∈ t, c ≠ '\n') (hne : ds ≠ []) (hdig : ds.all isDig = true) :
    parse_name_sequence ⟨t ++ ' ' :: ds⟩ = (pyStrip ⟨t⟩, digitsVal ds) := by
  unfold parse_name_sequence
  rw [show (⟨t ++ ' ' :: ds⟩ : String).data = t ++ ' ' :: ds from rfl]
  rw [seqScan_trailing ds hne hdig t [] hnl]
  simp

theorem parse_name_sequence_no_trailing (s : List Char)
    (hnl : ∀ c ∈ s, c ≠ '\n')
    (hno : ¬∃ t ds, s = t ++ ' ' :: ds ∧ ds ≠ [] ∧ ds.all isDig = true) :
    parse_name_sequence ⟨s⟩ = (pyStrip ⟨s⟩, 0) := by
  unfold parse_name_sequence
  rw [show (⟨s⟩ : String).data = s from rfl]
  rw [seqScan_no_trailing s [] hnl hno]
  simp

/-- Walking lemma: a newline followed by further characters kills the match
outright: the lazy group cannot cross it, the optional branch needs a leading
space, and `$` matches only at the end or just before a terminating newline. -/
theorem seqScan_interior_newline :
    ∀ (p q acc : List Char), (∀ c ∈ p, c ≠ '\n') → q ≠ [] →
      seqScan acc (p ++ '\n' :: q) = none := by
  intro p
  induction p with
  | nil =>
    intro q acc _ hq
    rw [List.nil_append,
      seqScan_cons_branch_none acc (seqBranch_eq_none_of_ne (by decide)),
      if_pos rfl, if_neg hq]
  | cons c p' ih =>
    intro q acc hnl hq
    have hbr : seqBranch (c :: (p' ++ '\n' :: q)) = none := by
      rcases h : seqBranch (c :: (p' ++ '\n' :: q)) with _ | ds
      · rfl
      · obtain ⟨t, heq, hdne, hdall, ht⟩ := seqBranch_some_inv h
        have key : p' ++ '\n' :: q = ds ++ t := by
          have h2 := congrArg List.tail heq
          simpa using h2
        exfalso
        rcases ht with rfl | rfl
        · rw [List.append_nil] at key
          have hmem : '\n' ∈ ds := by
            rw [← key]
            simp
          have := List.all_eq_true.mp hdall '\n' hmem
          simp [isDig] at this
        · have hlen := congrArg List.length key
          simp only [List.length_append, List.length_cons, List.length_nil] at hlen
          have e1 : (p' ++ '\n' :: q)[p'.length]? = some '\n' := by
            rw [List.getElem?_append_right (Nat.le_refl _), Nat.sub_self]
            simp
          rw [key] at e1
          by_cases hlt : p'.length < ds.length
          · rw [List.getElem?_append_left hlt] at e1
            have hmem : '\n' ∈ ds := List.mem_iff_getElem?.mpr ⟨p'.length, e1⟩
            have := List.all_eq_true.mp hdall '\n' hmem
            simp [isDig] at this
          · have h1 : 1 ≤ q.length := by
              cases q with
              | nil => exact absurd rfl hq
              | cons _ _ => simp
            omega
    have hcnl : c ≠ '\n' := hnl c (List.mem_cons_self c p')
    rw [List.cons_append, seqScan_cons_branch_none acc hbr, if_neg hcnl]
    exact ih q (c :: acc) (fun x hx => hnl x (List.mem_cons_of_mem c hx)) hq

/-- `parse_name_sequence` on a stem with an interior newline: the regex fails
to match and the source returns the stem unchanged with index 0 (line 40). -/
theorem parse_name_sequence_interior_newline (p q : List Char)
    (hnl : ∀ c ∈ p, c ≠ '\n') (hq : q ≠ []) :
    parse_name_sequence ⟨p ++ '\n' :: q⟩ = (⟨p ++ '\n' :: q⟩, 0) := by
  unfold parse_name_sequence
  rw [show (⟨p ++ '\n' :: q⟩ : String).data = p ++ '\n' :: q from rfl,
    seqScan_interior_newline p q [] hnl hq]

/-- Counterexample to C5 as stated: a stem containing a newline has multiple
space-separated digit runs, yet `re` fails to match (`.` does not cross the
newline) and the final trailing digit run is not captured — the sequence
index comes back 0 with the stem unchanged. -/
theorem C5_counterexample_newline :
    parse_name_sequence "a\nb 1 2" = ("a\nb 1 2", 0) := rfl

/-- C5 amended: the three concrete equations; for every newline-free stem
with (at least) two space-separated trailing digit runs, only the final run
is captured as the sequence index while the text before it (whitespace
stripped at both ends) becomes the base name; for every stem in which a
newline is followed by further characters the regex fails to match and the
parser returns the stem unchanged with index 0, while a purely terminal
newline still matches. -/
theorem C5_amended_final_run_captured :
    parse_name_sequence "X" = ("X", 0)
  ∧ parse_name_sequence "X 7" = ("X", 7)
  ∧ parse_name_sequence "X 7 8" = ("X 7", 8)
  ∧ (∀ (u d₁ d₂ : List Char), (∀ c ∈ u, c ≠ '\n') →
      d₁ ≠ [] → d₁.all isDig = true → d₂ ≠ [] → d₂.all isDig = true →
      parse_name_sequence ⟨u ++ ' ' :: d₁ ++ ' ' :: d₂⟩ =
        (pyStrip ⟨u ++ ' ' :: d₁⟩, digitsVal d₂))
  ∧ (∀ (p q : List Char), (∀ c ∈ p, c ≠ '\n') → q ≠ [] →
      parse_name_sequence ⟨p ++ '\n' :: q⟩ = (⟨p ++ '\n' :: q⟩, 0))
  ∧ parse_name_sequence "X 7\n" = ("X", 7)
  ∧ parse_name_sequence "ab\n" = ("ab", 0) := by
  refine ⟨rfl, rfl, rfl, fun u d₁ d₂ hnl h1ne h1dig h2ne h2dig => ?_,
    fun p q hnl hq => parse_name_sequence_interior_newline p q hnl hq, rfl, rfl⟩
  have heq : u ++ ' ' :: d₁ ++ ' ' :: d₂ = (u ++ ' ' :: d₁) ++ ' ' :: d₂ := by
    simp
  rw [heq]
  exact parse_name_sequence_trailing (u ++ ' ' :: d₁) d₂
    (by
      intro c hc
      rcases List.mem_append.mp hc with hc | hc
      · exact hnl c hc
      · rcases List.mem_cons.mp hc with rfl | hc
        · decide
        · exact ne_of_isDig (List.all_eq_true.mp h1dig c hc) (by decide))
    h2ne h2dig

/-- Witness for the amended C5: the final-run clause at `u = "X"`, `d₁ = "7"`,
`d₂ = "8"` reproduces `parse("X 7 8") = ("X 7", 8)`, and the interior-newline
clause at `p = "a"`, `q = "b 1 2"` reproduces the failing stem of the
counterexample. -/
theorem C5_amended_final_run_captured_witness :
    parse_name_sequence ⟨"X".data ++ ' ' :: "7".data ++ ' ' :: "8".data⟩ = ("X 7", 8)
  ∧ parse_name_sequence ⟨"a".data ++ '\n' :: "b 1 2".data⟩ = ("a\nb 1 2", 0) := by
  constructor
  · have := C5_amended_final_run_captured.2.2.2.1 "X".data "7".data "8".data
      (by decide) (by decide) (by decide) (by decide) (by decide)
    simpa using this
  · have := C5_amended_final_run_captured.2.2.2.2.1 "a".data "b 1 2".data
      (by decide) (by decide)
    exact this.trans (by rfl)

/-- Counterexample to C6 as stated: `str.strip()` removes leading whitespace
from the base name as well, so the base for `" X 7"` is `"X"`, not `" X"`. -/
theorem C6_counterexample_leading_strip :
    parse_name_sequence " X 7" = ("X", 7) ∧ ("X" : String) ≠ " X" := by
  exact ⟨rfl, by decide⟩

/-- C6 amended: for every newline-free stem ending with a space and a digit
run, the base name is the text before it trimmed of *both* leading and
trailing whitespace and the index is the parsed integer; for every
newline-free stem with no such suffix, the trimmed stem with index 0; and
for every stem in which a newline is followed by further characters, the
regex fails to match and the parser returns the stem unchanged with index 0
(the reason the first two clauses are stated for newline-free stems). -/
theorem C6_amended_strip_both_sides :
    (∀ t ds : List Char, (∀ c ∈ t, c ≠ '\n') → ds ≠ [] → ds.all isDig = true →
      parse_name_sequence ⟨t ++ ' ' :: ds⟩ = (pyStrip ⟨t⟩, digitsVal ds))
  ∧ (∀ s : List Char, (∀ c ∈ s, c ≠ '\n') →
      (¬∃ t ds, s = t ++ ' ' :: ds ∧ ds ≠ [] ∧ ds.all isDig = true) →
      parse_name_sequence ⟨s⟩ = (pyStrip ⟨s⟩, 0))
  ∧ (∀ p q : List Char, (∀ c ∈ p, c ≠ '\n') → q ≠ [] →
      parse_name_sequence ⟨p ++ '\n' :: q⟩ = (⟨p ++ '\n' :: q⟩, 0)) :=
  ⟨parse_name_sequence_trailing, parse_name_sequence_no_trailing,
    parse_name_sequence_interior_newline⟩

/-- Witness for the amended C6: all three clauses at concrete stems. -/
theorem C6_amended_strip_both_sides_witness :
    parse_name_sequence ⟨" X".data ++ ' ' :: "7".data⟩ = ("X", 7)
  ∧ parse_name_sequence ⟨"X7".data⟩ = ("X7", 0)
  ∧ parse_name_sequence ⟨"a".data ++ '\n' :: "b".data⟩ = ("a\nb", 0) := by
  refine ⟨?_, ?_, ?_⟩
  · have := C6_amended_strip_both_sides.1 " X".data "7".data
      (by decide) (by decide) (by decide)
    simpa using this
  · have := C6_amended_strip_both_sides.2.1 "X7".data (by decide)
      (by
        rintro ⟨t, ds, heq, hdne, -⟩
        have hsp : ' ' ∈ ("X7".data : List Char) := by
          rw [heq]; simp
        simp at hsp)
    simpa using this
  · exact (C6_amended_strip_both_sides.2.2 "a".data "b".data
      (by decide) (by decide)).trans (by rfl)

/-! ### The probe is total and UTC-normalizing (C8, C9) -/

theorem astimezoneUTC_offset {a b : AwareDT} (h : astimezoneUTC a = .ok b) :
    b.offsetSec = 0 := by
  unfold astimezoneUTC at h
  split at h
  · next h0 => injection h with h1; subst h1; exact h0
  · split at h
    · injection h with h1; subst h1; rfl
    · exact Except.noConfusion h

/-- Every timestamp `_parse_media_dt` ever returns carries the UTC offset. -/
theorem parse_media_dt_offset_zero {s : String} {a : AwareDT}
    (h : _parse_media_dt s = some a) : a.offsetSec = 0 := by
  unfold _parse_media_dt at h
  split at h
  · exact Option.noConfusion h
  · split at h
    · next dt hdt =>
      injection h with h1
      subst h1
      split at hdt
      · next n tzo _ => exact astimezoneUTC_offset hdt
      · exact Except.noConfusion hdt
    · split at h
      · injection h with h1; subst h1; rfl
      · split at h
        · injection h with h1; subst h1; rfl
        · exact Option.noConfusion h

theorem tryTagKeys_utc {tags : PyVal} : ∀ {ks : List String} {a : AwareDT},
    tryTagKeys tags ks = .ok (some a) → a.offsetSec = 0 := by
  intro ks
  induction ks with
  | nil => intro a h; simp [tryTagKeys] at h
  | cons k ks ih =>
    intro a h
    unfold tryTagKeys at h
    split at h
    · exact Except.noConfusion h
    · split at h
      · next dt hdt =>
        injection h with h1
        injection h1 with h2
        subst h2
        split at hdt
        · exact parse_media_dt_offset_zero hdt
        · exact Option.noConfusion hdt
      · exact ih h

theorem scanTagDicts_utc : ∀ {tds : List PyVal} {a : AwareDT},
    scanTagDicts tds = .ok (some a) → a.offsetSec = 0 := by
  intro tds
  induction tds with
  | nil => intro a h; simp [scanTagDicts] at h
  | cons tags rest ih =>
    intro a h
    unfold scanTagDicts at h
    split at h
    · exact Except.noConfusion h
    · next dt hdt =>
      injection h with h1
      injection h1 with h2
      subst h2
      exact tryTagKeys_utc hdt
    · exact ih h

theorem probeBody_utc : ∀ {o : ProbeOutcome} {a : AwareDT},
    probeBody o = .ok (some a) → a.offsetSec = 0 := by
  intro o a h
  cases o with
  | raised => exact Except.noConfusion h
  | completed rc loads =>
    simp only [probeBody] at h
    split at h
    · simp at h
    · split at h
      · exact Except.noConfusion h
      · split at h
        · exact Except.noConfusion h
        · split at h
          · exact Except.noConfusion h
          · split at h
            · exact Except.noConfusion h
            · split at h
              · exact Except.noConfusion h
              · split at h
                · exact Except.noConfusion h
                · exact scanTagDicts_utc h

/-- C8: the media probe never propagates an error: whatever the external tool
did — `subprocess.run` raising, a non-zero exit code, malformed JSON, a
non-object JSON document, missing or non-dict tag containers, or unparseable
tag values — `_media_created_dt_cached` returns `None` or an aware timestamp
normalized to UTC. -/
theorem C8_probe_absorbs_all_failures (o : ProbeOutcome) :
    _media_created_dt_cached o = none ∨
    ∃ a, _media_created_dt_cached o = some a ∧ a.offsetSec = 0 := by
  unfold _media_created_dt_cached
  rcases hb : probeBody o with e | r
  · left; rfl
  · rcases r with _ | a
    · left; rfl
    · right; exact ⟨a, rfl, probeBody_utc hb⟩

/-! ### Character and rendering facts for the ISO-8601 acceptance proofs -/

theorem digitChar_props {n : Nat} (h : n ≤ 9) :
    isDig (Nat.digitChar n) = true ∧ (Nat.digitChar n == '-') = false ∧
    (Nat.digitChar n == '+') = false ∧ Nat.digitChar n ≠ 'Z' ∧
    isPySpace (Nat.digitChar n) = false := by
  interval_cases n <;> exact ⟨by decide, by decide, by decide, by decide, by decide⟩

theorem replaceZ_append (a b : List Char) :
    replaceZ (a ++ b) = replaceZ a ++ replaceZ b := by
  induction a with
  | nil => rfl
  | cons c r ih =>
    by_cases hc : c = 'Z' <;> simp [replaceZ, hc, ih]

theorem replaceZ_eq_self {l : List Char} (h : ∀ c ∈ l, c ≠ 'Z') : replaceZ l = l := by
  induction l with
  | nil => rfl
  | cons c r ih =>
    rw [replaceZ, if_neg (h c (List.mem_cons_self c r)),
      ih (fun x hx => h x (List.mem_cons_of_mem c hx))]

theorem pyStrip_eq_self {l : List Char} (h : ∀ c ∈ l, isPySpace c = false) :
    pyStrip ⟨l⟩ = ⟨l⟩ := by
  unfold pyStrip
  have h1 : l.dropWhile isPySpace = l := by
    cases l with
    | nil => rfl
    | cons c r =>
      rw [List.dropWhile_cons, if_neg (by simp [h c (List.mem_cons_self c r)])]
  rw [show (⟨l⟩ : String).data = l from rfl, h1]
  have h2 : l.reverse.dropWhile isPySpace = l.reverse := by
    cases hr : l.reverse with
    | nil => rfl
    | cons c r =>
      have hc : c ∈ l := by
        have : c ∈ l.reverse := by rw [hr]; exact List.mem_cons_self c r
        simpa using this
      rw [List.dropWhile_cons, if_neg (by simp [h c hc])]
  rw [h2, List.reverse_reverse]

theorem read2_digits {a b : Nat} (ha : a ≤ 9) (hb : b ≤ 9) :
    read2 (Nat.digitChar a) (Nat.digitChar b) = some (10 * a + b) := by
  simp [read2, (digitChar_props ha).1, (digitChar_props hb).1,
    digVal_digitChar ha, digVal_digitChar hb]

theorem digitsVal6_chars {a b c d e f : Nat} (ha : a ≤ 9) (hb : b ≤ 9) (hc : c ≤ 9)
    (hd : d ≤ 9) (he : e ≤ 9) (hf : f ≤ 9) :
    digitsVal [Nat.digitChar a, Nat.digitChar b, Nat.digitChar c, Nat.digitChar d,
      Nat.digitChar e, Nat.digitChar f] =
      100000 * a + 10000 * b + 1000 * c + 100 * d + 10 * e + f := by
  simp [digitsVal, digVal_digitChar ha, digVal_digitChar hb, digVal_digitChar hc,
    digVal_digitChar hd, digVal_digitChar he, digVal_digitChar hf]
  ring

theorem findIdx?_from (p : Char → Bool) :
    ∀ (t u : List Char) (i : Nat), (∀ c ∈ t, p c = false) →
      List.findIdx? p (t ++ u) i = List.findIdx? p u (i + t.length) := by
  intro t
  induction t with
  | nil => intro u i _; simp
  | cons c t' ih =>
    intro u i hall
    rw [List.cons_append, List.findIdx?_cons,
      if_neg (by simp [hall c (List.mem_cons_self c t')]),
      ih u (i + 1) (fun x hx => hall x (List.mem_cons_of_mem c hx))]
    congr 1
    simp only [List.length_cons]
    omega

theorem findIdx?_none_of_all (p : Char → Bool) (l : List Char)
    (h : ∀ c ∈ l, p c = false) : List.findIdx? p l = none := by
  have := findIdx?_from p l [] 0 h
  simpa using this

theorem splitTz_none (cs : List Char)
    (h : ∀ c ∈ cs, (c == '-') = false ∧ (c == '+') = false) :
    splitTz cs = (cs, none) := by
  unfold splitTz
  rw [findIdx?_none_of_all _ cs (fun c hc => (h c hc).1),
    findIdx?_none_of_all _ cs (fun c hc => (h c hc).2)]

theorem splitTz_plus (t u : List Char)
    (ht : ∀ c ∈ t, (c == '-') = false ∧ (c == '+') = false)
    (hu : ∀ c ∈ u, (c == '-') = false) :
    splitTz (t ++ '+' :: u) = (t, some ('+', u)) := by
  unfold splitTz
  have h1 : List.findIdx? (· == '-') (t ++ '+' :: u) = none := by
    apply findIdx?_none_of_all
    intro c hc
    rcases List.mem_append.mp hc with hc | hc
    · exact (ht c hc).1
    · rcases List.mem_cons.mp hc with rfl | hc
      · decide
      · exact hu c hc
  have h2 : List.findIdx? (· == '+') (t ++ '+' :: u) = some t.length := by
    rw [findIdx?_from _ t ('+' :: u) 0 (fun c hc => (ht c hc).2), List.findIdx?_cons,
      if_pos (by decide)]
    simp
  have h3 : (t ++ '+' :: u).take t.length = t := List.take_left t ('+' :: u)
  have h4 : (t ++ '+' :: u).drop (t.length + 1) = u := by
    have e : t ++ '+' :: u = (t ++ ['+']) ++ u := by simp
    rw [e, show t.length + 1 = (t ++ ['+']).length by simp, List.drop_left]
  rw [h1, h2]
  simp [h3, h4]

/-- Evaluation of `fromisoformat` through its fixed-width date part: a valid
`YYYY-MM-DD`, one separator character, and a symbolic time suffix. -/
theorem fromisoformat_date_time (y mo d : Nat) (sep : Char) (timecs : List Char)
    (hy1 : 1 ≤ y) (hy : y ≤ 9999) (hmo1 : 1 ≤ mo) (hmo : mo ≤ 12)
    (hd1 : 1 ≤ d) (hd : d ≤ daysInMonth y mo) :
    fromisoformat (dig4 y ++ '-' :: dig2 mo ++ '-' :: dig2 d ++ sep :: timecs) =
      (match parseHMSF (splitTz timecs).1 with
       | none => .error ()
       | some (h, mi, s, us) =>
         if ¬(h ≤ 23 ∧ mi ≤ 59 ∧ s ≤ 59) then .error ()
         else
           match (splitTz timecs).2 with
           | none => .ok (⟨y, mo, d, h, mi, s, us⟩, none)
           | some (sgn, tzcs) =>
             match parseTzHMS tzcs with
             | none => .error ()
             | some off =>
               .ok (⟨y, mo, d, h, mi, s, us⟩,
                 some (if sgn = '-' then -(off : Int) else (off : Int)))) := by
  have hd99 : d ≤ 99 := by have := daysInMonth_le_31 y mo; omega
  have b1 : y / 100 / 10 ≤ 9 := by omega
  have b2 : y / 100 % 10 ≤ 9 := by omega
  have b3 : y % 100 / 10 ≤ 9 := by omega
  have b4 : y % 100 % 10 ≤ 9 := by omega
  have b5 : mo / 10 ≤ 9 := by omega
  have b6 : mo % 10 ≤ 9 := by omega
  have b7 : d / 10 ≤ 9 := by omega
  have b8 : d % 10 ≤ 9 := by omega
  have ey : 1000 * (y / 100 / 10) + 100 * (y / 100 % 10) + 10 * (y % 100 / 10)
      + y % 100 % 10 = y := by omega
  have em : 10 * (mo / 10) + mo % 10 = mo := by omega
  have ed : 10 * (d / 10) + d % 10 = d := by omega
  simp only [dig4, dig2, List.cons_append, List.nil_append]
  simp only [fromisoformat, List.all_cons, List.all_nil,
    (digitChar_props b1).1, (digitChar_props b2).1, (digitChar_props b3).1,
    (digitChar_props b4).1, (digitChar_props b5).1, (digitChar_props b6).1,
    (digitChar_props b7).1, (digitChar_props b8).1, Bool.and_self, Bool.and_true,
    Bool.true_and, not_true, if_false,
    digitsVal4_chars b1 b2 b3 b4, digitsVal2_chars b5 b6, digitsVal2_chars b7 b8,
    ey, em, ed]
  rw [if_neg (not_not_intro ⟨hy1, hmo1, hmo, hd1, hd⟩)]

/-- Evaluation of the fixed-width `HH:MM:SS` time grammar. -/
theorem parseHMSF_hms (h mi s : Nat) (hh : h ≤ 99) (hmi : mi ≤ 99) (hs : s ≤ 99) :
    parseHMSF (dig2 h ++ ':' :: dig2 mi ++ ':' :: dig2 s) = some (h, mi, s, 0) := by
  have b9 : h / 10 ≤ 9 := by omega
  have b10 : h % 10 ≤ 9 := by omega
  have b11 : mi / 10 ≤ 9 := by omega
  have b12 : mi % 10 ≤ 9 := by omega
  have b13 : s / 10 ≤ 9 := by omega
  have b14 : s % 10 ≤ 9 := by omega
  have eh : 10 * (h / 10) + h % 10 = h := by omega
  have emi : 10 * (mi / 10) + mi % 10 = mi := by omega
  have es : 10 * (s / 10) + s % 10 = s := by omega
  simp only [dig2, List.cons_append, List.nil_append, parseHMSF,
    read2_digits b9 b10, read2_digits b11 b12, read2_digits b13 b14, eh, emi, es]

/-- The characters of the bare time rendering are neither `'-'` nor `'+'`. -/
theorem timeChars_no_sign (h mi s : Nat) (hh : h ≤ 99) (hmi : mi ≤ 99) (hs : s ≤ 99) :
    ∀ c ∈ dig2 h ++ ':' :: dig2 mi ++ ':' :: dig2 s,
      (c == '-') = false ∧ (c == '+') = false := by
  intro c hc
  simp [dig2] at hc
  rcases hc with rfl | rfl | rfl | rfl | rfl | rfl | rfl | rfl <;>
    first
    | exact ⟨by decide, by decide⟩
    | exact ⟨(digitChar_props (by omega)).2.1, (digitChar_props (by omega)).2.2.1⟩

/-- `fromisoformat` accepts `YYYY-MM-DD<sep>HH:MM:SS` with no tz suffix. -/
theorem fromisoformat_core (y mo d h mi s : Nat) (hy1 : 1 ≤ y) (hy : y ≤ 9999)
    (hmo1 : 1 ≤ mo) (hmo : mo ≤ 12) (hd1 : 1 ≤ d) (hd : d ≤ daysInMonth y mo)
    (hh : h ≤ 23) (hmi : mi ≤ 59) (hs : s ≤ 59) :
    fromisoformat (isoCore y mo d h mi s 'T') =
      .ok (⟨y, mo, d, h, mi, s, 0⟩, none) := by
  have e : isoCore y mo d h mi s 'T' =
      dig4 y ++ '-' :: dig2 mo ++ '-' :: dig2 d
        ++ 'T' :: (dig2 h ++ ':' :: dig2 mi ++ ':' :: dig2 s) := by
    simp [isoCore]
  rw [e, fromisoformat_date_time y mo d 'T' _ hy1 hy hmo1 hmo hd1 hd,
    splitTz_none _ (timeChars_no_sign h mi s (by omega) (by omega) (by omega)),
    parseHMSF_hms h mi s (by omega) (by omega) (by omega)]
  simp [hh, hmi, hs]

theorem forall_mem_dig2 {P : Char → Prop} {n : Nat} (h : n ≤ 99)
    (hp : ∀ m, m ≤ 9 → P (Nat.digitChar m)) : ∀ c ∈ dig2 n, P c := by
  intro c hc
  have : c = Nat.digitChar (n / 10) ∨ c = Nat.digitChar (n % 10) := by
    simpa [dig2] using hc
  rcases this with rfl | rfl
  · exact hp _ (by omega)
  · exact hp _ (by omega)

theorem forall_mem_dig4 {P : Char → Prop} {n : Nat} (h : n ≤ 9999)
    (hp : ∀ m, m ≤ 9 → P (Nat.digitChar m)) : ∀ c ∈ dig4 n, P c := by
  unfold dig4
  rw [List.forall_mem_append]
  exact ⟨forall_mem_dig2 (by omega) hp, forall_mem_dig2 (by omega) hp⟩

theorem forall_mem_dig6 {P : Char → Prop} {n : Nat} (h : n ≤ 999999)
    (hp : ∀ m, m ≤ 9 → P (Nat.digitChar m)) : ∀ c ∈ dig6 n, P c := by
  unfold dig6
  rw [List.forall_mem_append, List.forall_mem_append]
  exact ⟨⟨forall_mem_dig2 (by omega) hp, forall_mem_dig2 (by omega) hp⟩,
    forall_mem_dig2 (by omega) hp⟩

theorem forall_mem_isoCore {P : Char → Prop} {y mo d h mi s : Nat} {sep : Char}
    (hy : y ≤ 9999) (hmo : mo ≤ 99) (hd : d ≤ 99) (hh : h ≤ 99) (hmi : mi ≤ 99)
    (hs : s ≤ 99) (hp : ∀ m, m ≤ 9 → P (Nat.digitChar m)) (hdash : P '-')
    (hcolon : P ':') (hsep : P sep) : ∀ c ∈ isoCore y mo d h mi s sep, P c := by
  unfold isoCore
  simp only [List.forall_mem_append, List.forall_mem_cons]
  exact ⟨⟨⟨⟨⟨forall_mem_dig4 hy hp, hdash, forall_mem_dig2 hmo hp⟩, hdash,
    forall_mem_dig2 hd hp⟩, hsep, forall_mem_dig2 hh hp⟩, hcolon,
    forall_mem_dig2 hmi hp⟩, hcolon, forall_mem_dig2 hs hp⟩

theorem digitsVal_dig6 {f : Nat} (hf : f ≤ 999999) : digitsVal (dig6 f) = f := by
  have c1 : f / 10000 / 10 ≤ 9 := by omega
  have c2 : f / 10000 % 10 ≤ 9 := by omega
  have c3 : f / 100 % 100 / 10 ≤ 9 := by omega
  have c4 : f / 100 % 100 % 10 ≤ 9 := by omega
  have c5 : f % 100 / 10 ≤ 9 := by omega
  have c6 : f % 100 % 10 ≤ 9 := by omega
  have e : dig6 f = [Nat.digitChar (f / 10000 / 10), Nat.digitChar (f / 10000 % 10),
      Nat.digitChar (f / 100 % 100 / 10), Nat.digitChar (f / 100 % 100 % 10),
      Nat.digitChar (f % 100 / 10), Nat.digitChar (f % 100 % 10)] := by
    simp [dig6, dig2]
  rw [e, digitsVal6_chars c1 c2 c3 c4 c5 c6]
  omega

/-- Evaluation of the fixed-width `HH:MM:SS.ffffff` time grammar. -/
theorem parseHMSF_hms_frac (h mi s f : Nat) (hh : h ≤ 99) (hmi : mi ≤ 99)
    (hs : s ≤ 99) (hf : f ≤ 999999) :
    parseHMSF (dig2 h ++ ':' :: dig2 mi ++ ':' :: dig2 s ++ '.' :: dig6 f) =
      some (h, mi, s, f) := by
  have b9 : h / 10 ≤ 9 := by omega
  have b10 : h % 10 ≤ 9 := by omega
  have b11 : mi / 10 ≤ 9 := by omega
  have b12 : mi % 10 ≤ 9 := by omega
  have b13 : s / 10 ≤ 9 := by omega
  have b14 : s % 10 ≤ 9 := by omega
  have eh : 10 * (h / 10) + h % 10 = h := by omega
  have emi : 10 * (mi / 10) + mi % 10 = mi := by omega
  have es : 10 * (s / 10) + s % 10 = s := by omega
  have hall : (dig6 f).all isDig = true :=
    List.all_eq_true.mpr (forall_mem_dig6 hf (fun m hm => (digitChar_props hm).1))
  have hlen : (dig6 f).length = 6 := by simp [dig6, dig2]
  simp only [dig2, List.cons_append, List.nil_append, parseHMSF,
    read2_digits b9 b10, read2_digits b11 b12, read2_digits b13 b14, eh, emi, es]
  simp [hall, hlen, digitsVal_dig6 hf]

/-- `fromisoformat` accepts fractional seconds and a `+00:00` offset suffix
(the form the `"Z"`-replacement produces). -/
theorem fromisoformat_frac_utc (y mo d h mi s f : Nat) (hy1 : 1 ≤ y) (hy : y ≤ 9999)
    (hmo1 : 1 ≤ mo) (hmo : mo ≤ 12) (hd1 : 1 ≤ d) (hd : d ≤ daysInMonth y mo)
    (hh : h ≤ 23) (hmi : mi ≤ 59) (hs : s ≤ 59) (hf : f ≤ 999999) :
    fromisoformat (isoCore y mo d h mi s 'T' ++ '.' :: dig6 f ++ '+' :: "00:00".data) =
      .ok (⟨y, mo, d, h, mi, s, f⟩, some 0) := by
  have e : isoCore y mo d h mi s 'T' ++ '.' :: dig6 f ++ '+' :: "00:00".data =
      dig4 y ++ '-' :: dig2 mo ++ '-' :: dig2 d ++ 'T' ::
        ((dig2 h ++ ':' :: dig2 mi ++ ':' :: dig2 s ++ '.' :: dig6 f)
          ++ '+' :: "00:00".data) := by
    simp [isoCore]
  have hts : ∀ c ∈ dig2 h ++ ':' :: dig2 mi ++ ':' :: dig2 s ++ '.' :: dig6 f,
      (c == '-') = false ∧ (c == '+') = false := by
    simp only [List.forall_mem_append, List.forall_mem_cons]
    have hp : ∀ m, m ≤ 9 →
        ((Nat.digitChar m == '-') = false ∧ (Nat.digitChar m == '+') = false) :=
      fun m hm => ⟨(digitChar_props hm).2.1, (digitChar_props hm).2.2.1⟩
    exact ⟨⟨⟨forall_mem_dig2 (by omega : h ≤ 99) hp, ⟨by decide, by decide⟩,
      forall_mem_dig2 (by omega : mi ≤ 99) hp⟩, ⟨by decide, by decide⟩,
      forall_mem_dig2 (by omega : s ≤ 99) hp⟩, ⟨by decide, by decide⟩,
      forall_mem_dig6 hf hp⟩
  have hu : ∀ c ∈ ("00:00".data : List Char), (c == '-') = false := by decide
  rw [e, fromisoformat_date_time y mo d 'T' _ hy1 hy hmo1 hmo hd1 hd,
    splitTz_plus _ _ hts hu]
  rw [show (dig2 h ++ ':' :: dig2 mi ++ ':' :: dig2 s ++ '.' :: dig6 f,
      some ('+', "00:00".data)).1 =
    dig2 h ++ ':' :: dig2 mi ++ ':' :: dig2 s ++ '.' :: dig6 f from rfl,
    parseHMSF_hms_frac h mi s f (by omega) (by omega) (by omega) hf]
  simp [hh, hmi, hs]
  rw [show parseTzHMS ['0', '0', ':', '0', '0'] = some 0 from rfl]
  simp

/-- A `fromisoformat` success whose parsed offset is zero or absent yields
the wall-clock fields with UTC attached, unshifted (the `astimezone` identity
short-circuit). -/
theorem parse_media_dt_of_iso_utc {s : String} {n : NaiveDT} {tzo : Option Int}
    (h : fromisoformat (replaceZ (pyStrip s).data) = .ok (n, tzo))
    (h0 : tzo.getD 0 = 0) : _parse_media_dt s = some ⟨n, 0⟩ := by
  have hne : ¬(pyStrip s = "") := by
    intro he
    rw [he] at h
    exact Except.noConfusion h
  unfold _parse_media_dt
  rw [if_neg hne]
  simp only [h, h0, astimezoneUTC]
  simp

/-- C9: the media tag parser accepts ISO-8601 with or without fractional
seconds and with or without a `Z`/offset suffix, plus the date-space-time
`strptime` fallbacks; every successful parse is timezone-aware and
normalized to UTC, and a value carrying no timezone information is
interpreted as UTC (same wall-clock instant, UTC offset attached). -/
theorem C9_media_datetime_parse_utc :
    (∀ (s : String) (a : AwareDT), _parse_media_dt s = some a → a.offsetSec = 0)
  ∧ (∀ (s : String) (n : NaiveDT),
      fromisoformat (replaceZ (pyStrip s).data) = .ok (n, none) →
      _parse_media_dt s = some ⟨n, 0⟩)
  ∧ (∀ y mo d h mi s, 1 ≤ y → y ≤ 9999 → 1 ≤ mo → mo ≤ 12 → 1 ≤ d →
      d ≤ daysInMonth y mo → h ≤ 23 → mi ≤ 59 → s ≤ 59 →
      _parse_media_dt ⟨isoCore y mo d h mi s 'T'⟩ =
        some ⟨⟨y, mo, d, h, mi, s, 0⟩, 0⟩)
  ∧ (∀ y mo d h mi s f, 1 ≤ y → y ≤ 9999 → 1 ≤ mo → mo ≤ 12 → 1 ≤ d →
      d ≤ daysInMonth y mo → h ≤ 23 → mi ≤ 59 → s ≤ 59 → f ≤ 999999 →
      _parse_media_dt ⟨isoCore y mo d h mi s 'T' ++ '.' :: dig6 f ++ ['Z']⟩ =
        some ⟨⟨y, mo, d, h, mi, s, f⟩, 0⟩)
  ∧ _parse_media_dt "2026-01-13 13:10:24" = some ⟨⟨2026, 1, 13, 13, 10, 24, 0⟩, 0⟩
  ∧ _parse_media_dt "2026-1-3 4:5:6" = some ⟨⟨2026, 1, 3, 4, 5, 6, 0⟩, 0⟩
  ∧ _parse_media_dt "2026-01-13T13:10:24+07:00" =
      some ⟨⟨2026, 1, 13, 6, 10, 24, 0⟩, 0⟩ := by
  refine ⟨fun s a h => parse_media_dt_offset_zero h,
    fun s n h => parse_media_dt_of_iso_utc h rfl,
    ?_, ?_, rfl, rfl, rfl⟩
  · intro y mo d h mi s hy1 hy hmo1 hmo hd1 hd hh hmi hs
    have hd99 : d ≤ 99 := by have := daysInMonth_le_31 y mo; omega
    refine @parse_media_dt_of_iso_utc _ _ none ?_ ?_
    · have hstrip : pyStrip ⟨isoCore y mo d h mi s 'T'⟩ = ⟨isoCore y mo d h mi s 'T'⟩ :=
        pyStrip_eq_self (forall_mem_isoCore hy (by omega) hd99 (by omega) (by omega)
          (by omega) (fun m hm => (digitChar_props hm).2.2.2.2) (by decide) (by decide)
          (by decide))
      rw [hstrip, show (⟨isoCore y mo d h mi s 'T'⟩ : String).data =
        isoCore y mo d h mi s 'T' from rfl]
      rw [replaceZ_eq_self (forall_mem_isoCore hy (by omega) hd99 (by omega) (by omega)
        (by omega) (fun m hm => (digitChar_props hm).2.2.2.1) (by decide) (by decide)
        (by decide))]
      exact fromisoformat_core y mo d h mi s hy1 hy hmo1 hmo hd1 hd hh hmi hs
    · rfl
  · intro y mo d h mi s f hy1 hy hmo1 hmo hd1 hd hh hmi hs hf
    have hd99 : d ≤ 99 := by have := daysInMonth_le_31 y mo; omega
    have hZ : ∀ m : Nat, m ≤ 9 → Nat.digitChar m ≠ 'Z' :=
      fun m hm => (digitChar_props hm).2.2.2.1
    have hS : ∀ m : Nat, m ≤ 9 → isPySpace (Nat.digitChar m) = false :=
      fun m hm => (digitChar_props hm).2.2.2.2
    refine @parse_media_dt_of_iso_utc _ _ (some 0) ?_ ?_
    · have hstrip : pyStrip ⟨isoCore y mo d h mi s 'T' ++ '.' :: dig6 f ++ ['Z']⟩ =
          ⟨isoCore y mo d h mi s 'T' ++ '.' :: dig6 f ++ ['Z']⟩ := by
        apply pyStrip_eq_self
        simp only [List.forall_mem_append, List.forall_mem_cons]
        refine ⟨⟨forall_mem_isoCore hy (by omega) hd99 (by omega) (by omega) (by omega)
          hS (by decide) (by decide) (by decide), (by decide), forall_mem_dig6 hf hS⟩,
          (by decide), ?_⟩
        intro c hc
        exact absurd hc (List.not_mem_nil c)
      rw [hstrip, show (⟨isoCore y mo d h mi s 'T' ++ '.' :: dig6 f ++ ['Z']⟩ :
        String).data = isoCore y mo d h mi s 'T' ++ '.' :: dig6 f ++ ['Z'] from rfl]
      have e1 : replaceZ ('.' :: dig6 f) = '.' :: replaceZ (dig6 f) := by
        have e : replaceZ ('.' :: dig6 f) =
            if ('.' : Char) = 'Z'
              then '+' :: '0' :: '0' :: ':' :: '0' :: '0' :: replaceZ (dig6 f)
              else '.' :: replaceZ (dig6 f) := rfl
        rw [e, if_neg (by decide)]
      have hrz : replaceZ (isoCore y mo d h mi s 'T' ++ '.' :: dig6 f ++ ['Z']) =
          isoCore y mo d h mi s 'T' ++ '.' :: dig6 f ++ '+' :: "00:00".data := by
        rw [replaceZ_append, replaceZ_append,
          replaceZ_eq_self (forall_mem_isoCore hy (by omega) hd99 (by omega) (by omega)
            (by omega) hZ (by decide) (by decide) (by decide)),
          e1, replaceZ_eq_self (forall_mem_dig6 hf hZ),
          show replaceZ ['Z'] = '+' :: "00:00".data from rfl]
      rw [hrz]
      exact fromisoformat_frac_utc y mo d h mi s f hy1 hy hmo1 hmo hd1 hd hh hmi hs hf
    · rfl

/-- Witness for C9: the universal ISO clauses applied at concrete field values
(with and without fractional seconds and the `Z` suffix), plus the
no-timezone-means-UTC clause at a concrete string. -/
theorem C9_media_datetime_parse_utc_witness :
    _parse_media_dt ⟨isoCore 2026 1 13 13 10 24 'T'⟩ =
      some ⟨⟨2026, 1, 13, 13, 10, 24, 0⟩, 0⟩
  ∧ _parse_media_dt ⟨isoCore 2026 1 13 13 10 24 'T' ++ '.' :: dig6 500000 ++ ['Z']⟩ =
      some ⟨⟨2026, 1, 13, 13, 10, 24, 500000⟩, 0⟩
  ∧ _parse_media_dt "2026-01-13T13:10:24" = some ⟨⟨2026, 1, 13, 13, 10, 24, 0⟩, 0⟩ :=
  ⟨C9_media_datetime_parse_utc.2.2.1 2026 1 13 13 10 24 (by decide) (by decide) (by decide)
      (by decide) (by decide) (by decide) (by decide) (by decide) (by decide),
    C9_media_datetime_parse_utc.2.2.2.1 2026 1 13 13 10 24 500000 (by decide) (by decide)
      (by decide) (by decide) (by decide) (by decide) (by decide) (by decide) (by decide)
      (by decide),
    C9_media_datetime_parse_utc.2.1 "2026-01-13T13:10:24" ⟨2026, 1, 13, 13, 10, 24, 0⟩
      (by rfl)⟩

end Transcriber
